import Mathlib

/-!
Verification of the graph-algorithm core of the labs-graph-theory repository.

The Python source is shallowly embedded:
* floats carrying exact small values are modelled as rationals, with
  float infinity modelled by the top element of a WithTop type;
* in-place list mutation becomes explicit state passing over Lean lists;
* unbounded while-loops and unbounded recursion take an explicit fuel
  argument; where exhausting the fuel could be confused with a genuine
  result, the function returns an Option and fuel exhaustion is none;
* a Python exception (KeyError, unpacking None) is modelled as none.
-/

/-! ## GraphOrientationType and Graph (src/3/graph.py) -/

inductive GraphOrientationType : Type
  | DIRECTED
  | UNDIRECTED
deriving DecidableEq

/-- Dense adjacency-matrix graph: a matrix entry none means no edge, some w
is the edge weight.  Mirrors the Graph class of src/3/graph.py. -/
structure Graph : Type where
  graph_type : GraphOrientationType
  n : ℕ
  adj_matrix : List (List (Option ℚ))
deriving DecidableEq

/-- Matrix entry read, used where Python reads adj_matrix with indices known
to be in range. -/
def mget (m : List (List (Option ℚ))) (i j : ℕ) : Option ℚ :=
  (m.getD i []).getD j none

/-- Matrix entry write, used where Python assigns adj_matrix with indices
known to be in range. -/
def mset (m : List (List (Option ℚ))) (i j : ℕ) (x : Option ℚ) :
    List (List (Option ℚ)) :=
  m.set i ((m.getD i []).set j x)

/-- Empty-graph constructor branch of Graph.__init__: an n-by-n matrix of
none with a zero diagonal. -/
def Graph.empty (graph_type : GraphOrientationType) (size : ℕ) : Graph :=
  { graph_type := graph_type
    n := size
    adj_matrix :=
      (List.range size).map fun i =>
        (List.range size).map fun j => if j = i then some 0 else none }

/-- Graph.size. -/
def Graph.size (g : Graph) : ℕ := g.n

/-- Graph.weight: the indices are arbitrary integers; outside the guard
0 <= a_i < n and 0 <= b_i < n Python falls off the end of the function and
returns None. -/
def Graph.weight (g : Graph) (a_i b_i : ℤ) : Option ℚ :=
  if 0 ≤ a_i ∧ a_i < (g.n : ℤ) ∧ 0 ≤ b_i ∧ b_i < (g.n : ℤ) then
    mget g.adj_matrix a_i.toNat b_i.toNat
  else
    none

/-- Graph.is_edge. -/
def Graph.is_edge (g : Graph) (a_i b_i : ℤ) : Bool :=
  decide (g.weight a_i b_i ≠ none ∧ a_i ≠ b_i)

/-- Graph.add_vertex: extends the matrix up to index a_i; a no-op when the
vertex already exists. -/
def Graph.add_vertex (g : Graph) (a_i : ℕ) : Graph :=
  if a_i < g.n then g
  else
    let new_size := a_i + 1
    let extended := g.adj_matrix.map fun row =>
      row ++ List.replicate (new_size - g.n) none
    let new_rows := (List.range' g.n (new_size - g.n)).map fun i =>
      (List.range new_size).map fun j => if j = i then some 0 else none
    { g with n := new_size, adj_matrix := extended ++ new_rows }

/-- Graph.add_edge: auto-extends via add_vertex when the larger index is out
of range, then writes the weight, mirrored for undirected graphs. -/
def Graph.add_edge (g : Graph) (a_i b_i : ℕ) (weight : ℚ := 1) : Graph :=
  let g1 := if g.n ≤ max a_i b_i then g.add_vertex (max a_i b_i) else g
  let g2 := { g1 with adj_matrix := mset g1.adj_matrix a_i b_i (some weight) }
  if g2.graph_type = GraphOrientationType.UNDIRECTED then
    { g2 with adj_matrix := mset g2.adj_matrix b_i a_i (some weight) }
  else g2

/-- Graph.remove_vertex: deletes row and column a_i, shifting later vertices
down; a no-op when a_i is out of range. -/
def Graph.remove_vertex (g : Graph) (a_i : ℕ) : Graph :=
  if a_i < g.n then
    { g with
      n := g.n - 1
      adj_matrix := (g.adj_matrix.eraseIdx a_i).map fun row => row.eraseIdx a_i }
  else g

/-- Graph.remove_edge: sets the entry to none, mirrored for undirected
graphs; a no-op when either index is out of range. -/
def Graph.remove_edge (g : Graph) (a_i b_i : ℕ) : Graph :=
  if a_i < g.n ∧ b_i < g.n then
    let g1 := { g with adj_matrix := mset g.adj_matrix a_i b_i none }
    if g1.graph_type = GraphOrientationType.UNDIRECTED then
      { g1 with adj_matrix := mset g1.adj_matrix b_i a_i none }
    else g1
  else g

/-! ## Dijkstra (src/3/graph.py, dijkstra and dijkstra_all)

Distances are WithTop ℚ, with ⊤ standing for float infinity.  The heapq
priority queue is modelled as a list of (distance, vertex) keys from which
popMin extracts the minimum under the Python tuple order; since any two live
entries differ (repeat pushes of a vertex carry strictly smaller distances),
extracting the minimum of the multiset is exactly what heappop observes. -/

/-- Generic minimum extraction standing in for heapq.heappop: returns the
smallest element under the supplied strict order and the remaining
elements. -/
def popMin {α : Type} (lt : α → α → Bool) : List α → Option (α × List α)
  | [] => none
  | a :: rest =>
    match popMin lt rest with
    | none => some (a, [])
    | some (m, rest2) => if lt m a then some (m, a :: rest2) else some (a, rest)

/-- Python tuple order on (distance, vertex) heap keys. -/
def dijkstraEntryLt (a b : WithTop ℚ × ℕ) : Bool :=
  if a.1 < b.1 then true
  else if b.1 < a.1 then false
  else a.2 < b.2

/-- State of the Dijkstra loop: tentative distances, parent pointers and the
priority queue. -/
structure DState : Type where
  dist : List (WithTop ℚ)
  prev : List (Option ℕ)
  queue : List (WithTop ℚ × ℕ)
deriving DecidableEq

/-- Inner relaxation loop of dijkstra: for u in range(n), relax the edge
from v to u when it exists and improves. -/
def dijkstraRelax (g : Graph) (v : ℕ) (st : DState) : DState :=
  (List.range g.n).foldl
    (fun s (u : ℕ) =>
      match g.weight (v : ℤ) (u : ℤ) with
      | none => s
      | some w =>
        if v ≠ u then
          let new_dist := s.dist.getD v ⊤ + (w : WithTop ℚ)
          if new_dist < s.dist.getD u ⊤ then
            { dist := s.dist.set u new_dist
              prev := s.prev.set u (some v)
              queue := s.queue ++ [(new_dist, u)] }
          else s
        else s)
    st

/-- Main loop shared by dijkstra and dijkstra_all.  The two Python loops are
identical except that the single-target variant breaks when the target is
popped; stopAt is some target for dijkstra and none for dijkstra_all. -/
def dijkstraLoop (g : Graph) (stopAt : Option ℕ) : ℕ → DState → DState
  | 0, st => st
  | fuel + 1, st =>
    match popMin dijkstraEntryLt st.queue with
    | none => st
    | some ((cur_dist, v), rest) =>
      let st2 : DState := { st with queue := rest }
      if st2.dist.getD v ⊤ < cur_dist then dijkstraLoop g stopAt fuel st2
      else if stopAt = some v then st2
      else dijkstraLoop g stopAt fuel (dijkstraRelax g v st2)

/-- Path reconstruction from the parent array: while current is not None,
append and follow prev.  The result is in end-to-start order, reversed by
the caller. -/
def walkPrev (prev : List (Option ℕ)) : ℕ → ℕ → List ℕ
  | 0, cur => [cur]
  | fuel + 1, cur =>
    cur ::
      (match prev.getD cur none with
      | none => []
      | some p => walkPrev prev fuel p)

/-- Initial Dijkstra state: dist infinity everywhere except 0 at start, no
parents, queue holding (0.0, start). -/
def dijkstraInit (n s : ℕ) : DState :=
  { dist := (List.replicate n (⊤ : WithTop ℚ)).set s 0
    prev := List.replicate n none
    queue := [(0, s)] }

/-- dijkstra: the first component is none for the out-of-range sentinel,
some ⊤ for unreachable, and some of a finite distance otherwise. -/
def dijkstra (g : Graph) (start endv : ℤ) (fuel : ℕ) :
    Option (WithTop ℚ) × List ℕ :=
  let n := g.n
  if 0 ≤ start ∧ start < (n : ℤ) ∧ 0 ≤ endv ∧ endv < (n : ℤ) then
    let s := start.toNat
    let e := endv.toNat
    let st := dijkstraLoop g (some e) fuel (dijkstraInit n s)
    if st.dist.getD e ⊤ = ⊤ then (some ⊤, [])
    else (some (st.dist.getD e ⊤), (walkPrev st.prev (n + 1) e).reverse)
  else (none, [])

/-- dijkstra_all: the same search without the early break, followed by path
reconstruction for every vertex. -/
def dijkstraAll (g : Graph) (start : ℤ) (fuel : ℕ) :
    List (WithTop ℚ × List ℕ) :=
  let n := g.n
  if 0 ≤ start ∧ start < (n : ℤ) then
    let s := start.toNat
    let st := dijkstraLoop g none fuel (dijkstraInit n s)
    (List.range n).map fun endv =>
      (st.dist.getD endv ⊤, (walkPrev st.prev (n + 1) endv).reverse)
  else []

/-- Reachability along the edges dijkstra relaxes: a step exists from v to u
when Graph.weight returns a value and v and u differ. -/
inductive Reachable (g : Graph) (s : ℕ) : ℕ → Prop
  | refl : Reachable g s s
  | step {v u : ℕ} : Reachable g s v → g.weight (v : ℤ) (u : ℤ) ≠ none →
      v ≠ u → Reachable g s u

/-! ## List access helpers -/

theorem getD_set_lt {α : Type} (l : List α) (i : ℕ) (a d : α) (h : i < l.length) :
    (l.set i a).getD i d = a := by
  simp [List.getD_eq_getElem?_getD, List.getElem?_set_self h]

theorem getD_set_ne {α : Type} (l : List α) (i j : ℕ) (a d : α) (h : i ≠ j) :
    (l.set i a).getD j d = l.getD j d := by
  simp [List.getD_eq_getElem?_getD, List.getElem?_set_ne h]

theorem getD_replicate {α : Type} (n m : ℕ) (a d : α) :
    (List.replicate n a).getD m d = if m < n then a else d := by
  simp only [List.getD_eq_getElem?_getD, List.getElem?_replicate]
  by_cases h : m < n <;> simp [h]

theorem getD_ge_length {α : Type} (l : List α) (i : ℕ) (d : α) (h : l.length ≤ i) :
    l.getD i d = d := by
  simp [List.getD_eq_getElem?_getD, List.getElem?_eq_none h]

theorem getD_map_range {α : Type} (n i : ℕ) (f : ℕ → α) (d : α) (h : i < n) :
    ((List.range n).map f).getD i d = f i := by
  simp [List.getD_eq_getElem?_getD, List.getElem?_map, List.getElem?_range h]

/-- A foldl step that preserves a predicate for every element of the list
preserves it for the whole fold. -/
theorem foldl_preserves {β σ : Type} (P : σ → Prop) (f : σ → β → σ) :
    ∀ (l : List β), (∀ s b, b ∈ l → P s → P (f s b)) → ∀ s, P s → P (l.foldl f s)
  | [], _, _, hs => hs
  | b :: l, hf, s, hs =>
    foldl_preserves P f l (fun s c hc => hf s c (List.mem_cons_of_mem b hc)) _
      (hf s b (List.mem_cons_self b l) hs)

/-! ## Dijkstra invariants for the unreachable sentinel -/

/-- Invariant of the Dijkstra search state: distance and parent arrays keep
their length, any vertex with a finite tentative distance is reachable from
the start, and any vertex with a parent pointer has a finite distance. -/
def DPInv (g : Graph) (s : ℕ) (st : DState) : Prop :=
  st.dist.length = g.n ∧ st.prev.length = g.n ∧
  (∀ u : ℕ, st.dist.getD u ⊤ ≠ ⊤ → Reachable g s u) ∧
  (∀ u : ℕ, st.prev.getD u none ≠ none → st.dist.getD u ⊤ ≠ ⊤)

theorem dpinv_relax (g : Graph) (s v : ℕ) (st : DState) (h : DPInv g s st) :
    DPInv g s (dijkstraRelax g v st) := by
  unfold dijkstraRelax
  refine foldl_preserves (DPInv g s) _ _ ?_ st h
  intro t u _ ht
  obtain ⟨hld, hlp, hdist, hprev⟩ := ht
  cases hw : g.weight (v : ℤ) (u : ℤ) with
  | none => exact ⟨hld, hlp, hdist, hprev⟩
  | some w =>
    simp only [hw]
    by_cases hvu : v ≠ u
    · simp only [if_pos hvu]
      by_cases himp : t.dist.getD v ⊤ + (w : WithTop ℚ) < t.dist.getD u ⊤
      · simp only [if_pos himp]
        have hnd : t.dist.getD v ⊤ + (w : WithTop ℚ) ≠ ⊤ := himp.ne_top
        have hdv : t.dist.getD v ⊤ ≠ ⊤ := fun hv => hnd (by rw [hv, WithTop.top_add])
        have hru : Reachable g s u :=
          Reachable.step (hdist v hdv) (by simp [hw]) hvu
        by_cases hu : u < t.dist.length
        · refine ⟨by simpa using hld, by simpa using hlp, ?_, ?_⟩
          · intro x hx
            by_cases hxu : u = x
            · exact hxu ▸ hru
            · exact hdist x (by rwa [getD_set_ne _ _ _ _ _ hxu] at hx)
          · intro x hx
            by_cases hxu : u = x
            · subst hxu
              rw [getD_set_lt _ _ _ _ hu]
              exact hnd
            · rw [getD_set_ne _ _ _ _ _ hxu]
              rw [getD_set_ne _ _ _ _ _ hxu] at hx
              exact hprev x hx
        · have hu2 : ¬ u < t.prev.length := by omega
          rw [List.set_eq_of_length_le (by omega), List.set_eq_of_length_le (by omega)]
          exact ⟨hld, hlp, hdist, hprev⟩
      · simp only [if_neg himp]
        exact ⟨hld, hlp, hdist, hprev⟩
    · simp only [if_neg hvu]
      exact ⟨hld, hlp, hdist, hprev⟩

theorem dpinv_loop (g : Graph) (s : ℕ) (stopAt : Option ℕ) :
    ∀ (fuel : ℕ) (st : DState), DPInv g s st →
      DPInv g s (dijkstraLoop g stopAt fuel st)
  | 0, _, h => h
  | fuel + 1, st, h => by
    unfold dijkstraLoop
    cases hp : popMin dijkstraEntryLt st.queue with
    | none => exact h
    | some pr =>
      obtain ⟨⟨cur_dist, v⟩, rest⟩ := pr
      simp only
      have h2 : DPInv g s { st with queue := rest } :=
        ⟨h.1, h.2.1, h.2.2.1, h.2.2.2⟩
      by_cases hst : ({ st with queue := rest } : DState).dist.getD v ⊤ < cur_dist
      · simp only [if_pos hst]
        exact dpinv_loop g s stopAt fuel _ h2
      · simp only [if_neg hst]
        by_cases hstop : stopAt = some v
        · simp only [if_pos hstop]
          exact h2
        · simp only [if_neg hstop]
          exact dpinv_loop g s stopAt fuel _ (dpinv_relax g s v _ h2)

theorem dpinv_init (g : Graph) (s : ℕ) :
    DPInv g s (dijkstraInit g.n s) := by
  refine ⟨by simp [dijkstraInit], by simp [dijkstraInit], ?_, ?_⟩
  · intro u hu
    by_cases hsu : s = u
    · exact hsu ▸ Reachable.refl
    · rw [dijkstraInit] at hu
      simp only at hu
      rw [getD_set_ne _ _ _ _ _ hsu, getD_replicate] at hu
      by_cases h2 : u < g.n <;> simp [h2] at hu
  · intro u hu
    rw [dijkstraInit] at hu
    simp only at hu
    rw [getD_replicate] at hu
    by_cases h2 : u < g.n <;> simp [h2] at hu

/-- Unreachability gives an infinite final distance, for any fuel. -/
theorem dijkstra_dist_top (g : Graph) (stopAt : Option ℕ) (s t fuel : ℕ)
    (hur : ¬ Reachable g s t) :
    (dijkstraLoop g stopAt fuel (dijkstraInit g.n s)).dist.getD t ⊤ = ⊤ := by
  by_contra hne
  exact hur ((dpinv_loop g s stopAt fuel _ (dpinv_init g s)).2.2.1 t hne)

/-- Unreachability leaves the parent pointer unset, for any fuel. -/
theorem dijkstra_prev_none (g : Graph) (stopAt : Option ℕ) (s t fuel : ℕ)
    (hur : ¬ Reachable g s t) :
    (dijkstraLoop g stopAt fuel (dijkstraInit g.n s)).prev.getD t none = none := by
  by_contra hne
  exact hur ((dpinv_loop g s stopAt fuel _ (dpinv_init g s)).2.2.1 t
    ((dpinv_loop g s stopAt fuel _ (dpinv_init g s)).2.2.2 t hne))

/-- In the empty two-vertex graph, vertex 1 cannot be reached from vertex 0:
every reachable vertex is 0 itself. -/
theorem not_reachable_empty_two : ¬ Reachable (Graph.empty .UNDIRECTED 2) 0 1 := by
  have key : ∀ u, Reachable (Graph.empty .UNDIRECTED 2) 0 u → u = 0 := by
    intro u h
    induction h with
    | refl => rfl
    | @step v u hv hw hvu ih =>
      subst ih
      exfalso
      by_cases hu : (u : ℤ) < 2
      · have : u = 0 ∨ u = 1 := by omega
        rcases this with h0 | h1
        · exact hvu (h0 ▸ rfl)
        · subst h1
          exact hw (by decide)
      · exact hw (by rw [Graph.weight, if_neg (fun hc => hu hc.2.2.2)])
  intro h
  exact absurd (key 1 h) (by decide)

/-- C4, counterexample part: in the empty undirected graph on two vertices,
vertex 1 is unreachable from vertex 0, and all_shortest_paths records the
singleton path containing the target rather than the empty path the claim
demands. -/
theorem c4_dijkstra_all_counterexample :
    ¬ Reachable (Graph.empty .UNDIRECTED 2) 0 1 ∧
    dijkstraAll (Graph.empty .UNDIRECTED 2) 0 5 = [(0, [0]), (⊤, [1])] ∧
    ((⊤ : WithTop ℚ), [1]) ≠ ((⊤ : WithTop ℚ), ([] : List ℕ)) :=
  ⟨not_reachable_empty_two, by decide, by decide⟩

/-- C4, amended: for an in-range start and an unreachable in-range target,
shortest_path returns distance infinity with the empty path, while
all_shortest_paths records distance infinity with the singleton path holding
only the target itself. -/
theorem c4_unreachable_sentinels (g : Graph) (start t : ℤ) (fuel : ℕ)
    (hs : 0 ≤ start ∧ start < (g.n : ℤ)) (ht : 0 ≤ t ∧ t < (g.n : ℤ))
    (hur : ¬ Reachable g start.toNat t.toNat) :
    dijkstra g start t fuel = (some ⊤, []) ∧
    (dijkstraAll g start fuel).getD t.toNat (0, []) = (⊤, [t.toNat]) := by
  have hg : 0 ≤ start ∧ start < (g.n : ℤ) ∧ 0 ≤ t ∧ t < (g.n : ℤ) :=
    ⟨hs.1, hs.2, ht.1, ht.2⟩
  constructor
  · rw [dijkstra]
    simp only [if_pos hg]
    rw [if_pos (dijkstra_dist_top g (some t.toNat) start.toNat t.toNat fuel hur)]
  · rw [dijkstraAll]
    simp only [if_pos (And.intro hs.1 hs.2)]
    have htn : t.toNat < g.n := by omega
    rw [getD_map_range _ _ _ _ htn]
    rw [dijkstra_dist_top g none start.toNat t.toNat fuel hur]
    have hprev := dijkstra_prev_none g none start.toNat t.toNat fuel hur
    have : walkPrev (dijkstraLoop g none fuel (dijkstraInit g.n start.toNat)).prev
        (g.n + 1) t.toNat = [t.toNat] := by
      rw [walkPrev, hprev]
    rw [this]
    rfl

/-- C4 witness: the amended statement evaluated in the empty undirected graph
on two vertices with start 0 and target 1. -/
theorem c4_unreachable_sentinels_witness :
    dijkstra (Graph.empty .UNDIRECTED 2) 0 1 3 = (some ⊤, []) ∧
    (dijkstraAll (Graph.empty .UNDIRECTED 2) 0 3).getD 1 (0, []) = (⊤, [1]) :=
  c4_unreachable_sentinels (Graph.empty .UNDIRECTED 2) 0 1 3
    (by decide) (by decide) not_reachable_empty_two

/-- C9: an out-of-range start or end makes shortest_path return the
(None, empty path) sentinel, which differs from the unreachable sentinel
(infinity, empty path). -/
theorem c9_out_of_range_sentinel (g : Graph) (start endv : ℤ) (fuel : ℕ)
    (h : ¬ (0 ≤ start ∧ start < (g.n : ℤ) ∧ 0 ≤ endv ∧ endv < (g.n : ℤ))) :
    dijkstra g start endv fuel = (none, []) ∧
    (none : Option (WithTop ℚ)) ≠ some ⊤ := by
  refine ⟨?_, by decide⟩
  rw [dijkstra]
  simp only [if_neg h]

/-- C9 witness: a negative start vertex in a two-vertex graph. -/
theorem c9_out_of_range_sentinel_witness :
    dijkstra (Graph.empty .UNDIRECTED 2) (-1) 0 7 = (none, []) :=
  (c9_out_of_range_sentinel (Graph.empty .UNDIRECTED 2) (-1) 0 7 (by decide)).1

/-- C10: Graph.weight is total over all integer index pairs; it returns the
stored matrix entry exactly when both indices are in range and None
otherwise, negative indices included. -/
theorem c10_weight_total (g : Graph) (a b : ℤ) :
    (0 ≤ a ∧ a < (g.n : ℤ) ∧ 0 ≤ b ∧ b < (g.n : ℤ) →
      g.weight a b = mget g.adj_matrix a.toNat b.toNat) ∧
    (¬ (0 ≤ a ∧ a < (g.n : ℤ) ∧ 0 ≤ b ∧ b < (g.n : ℤ)) →
      g.weight a b = none) := by
  constructor
  · intro h
    rw [Graph.weight, if_pos h]
  · intro h
    rw [Graph.weight, if_neg h]

/-- C10 witness: a negative index evaluates to None on a concrete graph. -/
theorem c10_weight_total_witness :
    (Graph.empty .UNDIRECTED 2).weight (-1) 0 = none :=
  (c10_weight_total (Graph.empty .UNDIRECTED 2) (-1) 0).2 (by decide)

/-! ## Matrix write algebra, used for the add_edge and remove_edge claims -/

theorem set_getD_self {α : Type} :
    ∀ (l : List α) (i : ℕ) (d : α), i < l.length → l.set i (l.getD i d) = l
  | _ :: _, 0, _, _ => rfl
  | a :: l, i + 1, d, h => by
    simp only [List.set_cons_succ, List.getD_cons_succ]
    rw [set_getD_self l i d (by simpa using h)]

theorem mset_eq_self (m : List (List (Option ℚ))) (i j : ℕ) :
    mset m i j (mget m i j) = m := by
  unfold mset mget
  by_cases hi : i < m.length
  · by_cases hj : j < (m.getD i []).length
    · rw [set_getD_self _ _ _ hj, set_getD_self _ _ _ hi]
    · rw [List.set_eq_of_length_le (le_of_not_lt hj), set_getD_self _ _ _ hi]
  · exact List.set_eq_of_length_le (le_of_not_lt hi)

theorem mset_mset_same (m : List (List (Option ℚ))) (i j : ℕ) (x y : Option ℚ) :
    mset (mset m i j x) i j y = mset m i j y := by
  unfold mset
  by_cases hi : i < m.length
  · rw [getD_set_lt _ _ _ _ hi, List.set_set, List.set_set]
  · have h1 : m.set i ((m.getD i []).set j x) = m :=
      List.set_eq_of_length_le (le_of_not_lt hi)
    rw [h1]

theorem mset_comm (m : List (List (Option ℚ))) {i1 i2 : ℕ} (j1 j2 : ℕ)
    (x y : Option ℚ) (h : i1 ≠ i2) :
    mset (mset m i1 j1 x) i2 j2 y = mset (mset m i2 j2 y) i1 j1 x := by
  unfold mset
  rw [getD_set_ne _ _ _ _ _ h, getD_set_ne _ _ _ _ _ h.symm,
    List.set_comm _ _ _ h]

theorem mget_mset_self (m : List (List (Option ℚ))) (i j : ℕ) (x : Option ℚ)
    (hi : i < m.length) (hj : j < (m.getD i []).length) :
    mget (mset m i j x) i j = x := by
  unfold mget mset
  rw [getD_set_lt _ _ _ _ hi, getD_set_lt _ _ _ _ hj]

theorem mget_mset_ne (m : List (List (Option ℚ))) (a b i j : ℕ) (x : Option ℚ)
    (h : a ≠ i ∨ b ≠ j) :
    mget (mset m a b x) i j = mget m i j := by
  unfold mget mset
  rcases h with h | h
  · rw [getD_set_ne _ _ _ _ _ h]
  · by_cases hai : a = i
    · subst hai
      by_cases hlt : a < m.length
      · rw [getD_set_lt _ _ _ _ hlt, getD_set_ne _ _ _ _ _ h]
      · rw [List.set_eq_of_length_le (le_of_not_lt hlt)]
    · rw [getD_set_ne _ _ _ _ _ hai]

/-- C5, counterexample part: on an undirected graph already holding the edge
(0, 1) with weight 5, add_edge(0,1,1) then remove_edge(0,1) deletes the
pre-existing edge instead of restoring it, although 0 and 1 differ. -/
theorem c5_add_remove_counterexample :
    ((((Graph.empty .UNDIRECTED 2).add_edge 0 1 5).add_edge 0 1 1).remove_edge 0 1) ≠
      (Graph.empty .UNDIRECTED 2).add_edge 0 1 5 ∧ (0 : ℕ) ≠ 1 :=
  ⟨by decide, by decide⟩

/-- C5, amended: for in-range distinct vertices with no edge currently
recorded from a to b (and none from b to a when the graph is undirected),
add_edge followed by remove_edge on the same pair restores the graph
exactly, the diagonal included. -/
theorem c5_add_remove_restores (g : Graph) (a b : ℕ) (w : ℚ)
    (hab : a ≠ b) (ha : a < g.n) (hb : b < g.n)
    (hab0 : mget g.adj_matrix a b = none)
    (hba0 : g.graph_type = .UNDIRECTED → mget g.adj_matrix b a = none) :
    (g.add_edge a b w).remove_edge a b = g := by
  obtain ⟨gt, n, m⟩ := g
  have hmax : ¬ n ≤ max a b := by
    simp only [not_le, Nat.max_lt]
    exact ⟨ha, hb⟩
  cases gt with
  | UNDIRECTED =>
    have hba0u := hba0 rfl
    simp only [Graph.add_edge, Graph.remove_edge, if_neg hmax, if_true]
    rw [if_pos (show a < n ∧ b < n from ⟨ha, hb⟩)]
    have hab0m : mget m a b = none := hab0
    have hba0m : mget m b a = none := hba0u
    refine congrArg (Graph.mk GraphOrientationType.UNDIRECTED n) ?_
    rw [mset_comm (mset m a b (some w)) a b (some w) none (Ne.symm hab)]
    rw [mset_mset_same m a b (some w) none]
    rw [mset_mset_same (mset m a b none) b a (some w) none]
    rw [show mset m a b none = m from by rw [← hab0m]; exact mset_eq_self m a b]
    rw [show mset m b a none = m from by rw [← hba0m]; exact mset_eq_self m b a]
  | DIRECTED =>
    simp only [Graph.add_edge, Graph.remove_edge, if_neg hmax, reduceCtorEq, if_false]
    rw [if_pos (show a < n ∧ b < n from ⟨ha, hb⟩)]
    have hab0m : mget m a b = none := hab0
    refine congrArg (Graph.mk GraphOrientationType.DIRECTED n) ?_
    rw [mset_mset_same m a b (some w) none]
    rw [show mset m a b none = m from by rw [← hab0m]; exact mset_eq_self m a b]

/-- C5 witness: the amended statement evaluated on the empty undirected graph
on two vertices with the edge (0, 1, 3). -/
theorem c5_add_remove_restores_witness :
    ((Graph.empty .UNDIRECTED 2).add_edge 0 1 3).remove_edge 0 1 =
      Graph.empty .UNDIRECTED 2 :=
  c5_add_remove_restores (Graph.empty .UNDIRECTED 2) 0 1 3 (by decide) (by decide)
    (by decide) (by decide) (fun _ => by decide)

/-! ## Prim (src/3/graph.py, prim)

The expression graph.weight(v, u) or float("inf") uses Python truthiness:
both a missing edge (None) and an edge whose weight is 0.0 (a falsy float)
are replaced by infinity. -/

/-- Python x or float("inf") applied to an optional weight. -/
def pyOrInf (x : Option ℚ) : WithTop ℚ :=
  match x with
  | none => ⊤
  | some q => if q = 0 then ⊤ else (q : WithTop ℚ)

/-- The weight prim considers between v and u:
min(weight(v,u) or inf, weight(u,v) or inf). -/
def primConsidered (g : Graph) (v u : ℕ) : WithTop ℚ :=
  min (pyOrInf (g.weight (v : ℤ) (u : ℤ))) (pyOrInf (g.weight (u : ℤ) (v : ℤ)))

/-- The weight the specification describes between v and u: the minimum of
the two directional weights, an absent edge contributing infinity. -/
def specMinWeight (g : Graph) (v u : ℕ) : WithTop ℚ :=
  min ((g.weight (v : ℤ) (u : ℤ)).elim ⊤ (fun q => (q : WithTop ℚ)))
    ((g.weight (u : ℤ) (v : ℤ)).elim ⊤ (fun q => (q : WithTop ℚ)))

/-- State of the prim loop: cheapest known connecting-edge weights, parent
pointers and the priority queue. -/
structure PState : Type where
  min_edge : List (WithTop ℚ)
  prev : List (Option ℕ)
  queue : List (WithTop ℚ × ℕ)
deriving DecidableEq

/-- Inner loop of prim: for u in range(n), u distinct from v, consider
primConsidered and relax on the edge weight. -/
def primRelax (g : Graph) (v : ℕ) (st : PState) : PState :=
  (List.range g.n).foldl
    (fun s (u : ℕ) =>
      if v = u then s
      else
        let min_weight := primConsidered g v u
        if min_weight ≠ ⊤ ∧ min_weight < s.min_edge.getD u ⊤ then
          { min_edge := s.min_edge.set u min_weight
            prev := s.prev.set u (some v)
            queue := s.queue ++ [(min_weight, u)] }
        else s)
    st

/-- Main loop of prim, with the same lazy-deletion discipline as the
Dijkstra loop but keyed on edge weight. -/
def primLoop (g : Graph) : ℕ → PState → PState
  | 0, st => st
  | fuel + 1, st =>
    match popMin dijkstraEntryLt st.queue with
    | none => st
    | some ((cur_weight, v), rest) =>
      let st2 : PState := { st with queue := rest }
      if st2.min_edge.getD v ⊤ < cur_weight then primLoop g fuel st2
      else primLoop g fuel (primRelax g v st2)

/-- prim: despite its name and docstring the Python function returns, for
every vertex, the tree path from start to that vertex. -/
def prim (g : Graph) (start : ℤ) (fuel : ℕ) : List (List ℕ) :=
  let n := g.n
  if 0 ≤ start ∧ start < (n : ℤ) then
    let s := start.toNat
    let st0 : PState :=
      { min_edge := (List.replicate n (⊤ : WithTop ℚ)).set s 0
        prev := List.replicate n none
        queue := [(0, s)] }
    let st := primLoop g fuel st0
    (List.range n).map fun endv => (walkPrev st.prev (n + 1) endv).reverse
  else []

/-- C6, counterexample part: in a directed graph with a single edge of
weight 0 from 0 to 1, prim considers infinity between 0 and 1 because the
falsy weight 0.0 is swallowed by the or expression, while the claim demands
min(0, infinity) = 0. -/
theorem c6_prim_zero_weight_counterexample :
    primConsidered ((Graph.empty .DIRECTED 2).add_edge 0 1 0) 0 1 = ⊤ ∧
    specMinWeight ((Graph.empty .DIRECTED 2).add_edge 0 1 0) 0 1 = (0 : ℚ) ∧
    (⊤ : WithTop ℚ) ≠ ((0 : ℚ) : WithTop ℚ) :=
  ⟨by decide, by decide, by decide⟩

/-- C6, amended: whenever neither directional weight is the falsy value 0.0,
the weight prim considers between two vertices equals the claimed
min(weight(v,u), weight(u,v)) with absent edges contributing infinity. -/
theorem c6_prim_considered_weight (g : Graph) (v u : ℕ)
    (hvu : g.weight (v : ℤ) (u : ℤ) ≠ some 0)
    (huv : g.weight (u : ℤ) (v : ℤ) ≠ some 0) :
    primConsidered g v u = specMinWeight g v u := by
  unfold primConsidered specMinWeight
  have e1 : pyOrInf (g.weight (v : ℤ) (u : ℤ)) =
      (g.weight (v : ℤ) (u : ℤ)).elim ⊤ (fun q => (q : WithTop ℚ)) := by
    cases hw : g.weight (v : ℤ) (u : ℤ) with
    | none => rfl
    | some q =>
      have : q ≠ 0 := fun h => hvu (by rw [hw, h])
      simp [pyOrInf, this]
  have e2 : pyOrInf (g.weight (u : ℤ) (v : ℤ)) =
      (g.weight (u : ℤ) (v : ℤ)).elim ⊤ (fun q => (q : WithTop ℚ)) := by
    cases hw : g.weight (u : ℤ) (v : ℤ) with
    | none => rfl
    | some q =>
      have : q ≠ 0 := fun h => huv (by rw [hw, h])
      simp [pyOrInf, this]
  rw [e1, e2]

/-- C6 witness: the amended statement evaluated on a two-vertex directed
graph with a single edge of weight 5. -/
theorem c6_prim_considered_weight_witness :
    primConsidered ((Graph.empty .DIRECTED 2).add_edge 0 1 5) 0 1 =
      specMinWeight ((Graph.empty .DIRECTED 2).add_edge 0 1 5) 0 1 :=
  c6_prim_considered_weight ((Graph.empty .DIRECTED 2).add_edge 0 1 5) 0 1
    (by decide) (by decide)

/-! ## Operation sequences and the undirected symmetry invariant (C7) -/

/-- One mutating Graph operation. -/
inductive GraphOp : Type
  | addVertex (k : ℕ)
  | addEdge (a b : ℕ) (w : ℚ)
  | removeVertex (k : ℕ)
  | removeEdge (a b : ℕ)

/-- Interpretation of an operation on a graph. -/
def applyOp (g : Graph) : GraphOp → Graph
  | .addVertex k => g.add_vertex k
  | .addEdge a b w => g.add_edge a b w
  | .removeVertex k => g.remove_vertex k
  | .removeEdge a b => g.remove_edge a b

/-- A sequence of operations applied left to right. -/
def applyOps (g : Graph) (ops : List GraphOp) : Graph :=
  ops.foldl applyOp g

/-- Well-formedness plus symmetry: the adjacency matrix is n by n and
symmetric on all in-range index pairs. -/
def SymWF (g : Graph) : Prop :=
  g.adj_matrix.length = g.n ∧ (∀ row ∈ g.adj_matrix, row.length = g.n) ∧
  ∀ i j : ℕ, i < g.n → j < g.n →
    mget g.adj_matrix i j = mget g.adj_matrix j i

theorem mget_empty (gt : GraphOrientationType) (s i j : ℕ) :
    mget (Graph.empty gt s).adj_matrix i j =
      if i < s ∧ j < s then (if j = i then some 0 else none) else none := by
  unfold Graph.empty mget
  dsimp only
  by_cases hi : i < s
  · have hrow : ((List.range s).map (fun i0 => (List.range s).map
        (fun j0 => if j0 = i0 then some (0 : ℚ) else none))).getD i [] =
        (List.range s).map (fun j0 => if j0 = i then some (0 : ℚ) else none) := by
      rw [List.getD_eq_getElem?_getD, List.getElem?_map, List.getElem?_range hi]
      rfl
    rw [hrow]
    by_cases hj : j < s
    · rw [List.getD_eq_getElem?_getD, List.getElem?_map, List.getElem?_range hj]
      simp [hi, hj]
    · rw [getD_ge_length _ _ _ (by simpa using Nat.le_of_not_lt hj)]
      simp [hi, hj]
  · rw [show ((List.range s).map (fun i0 => (List.range s).map
        (fun j0 => if j0 = i0 then some (0 : ℚ) else none))).getD i [] = [] from
      getD_ge_length _ _ _ (by simpa using Nat.le_of_not_lt hi)]
    simp [hi]

theorem symwf_empty (gt : GraphOrientationType) (s : ℕ) :
    SymWF (Graph.empty gt s) := by
  refine ⟨by simp [Graph.empty], ?_, ?_⟩
  · intro row hrow
    simp only [Graph.empty, List.mem_map] at hrow
    obtain ⟨k, _, hk⟩ := hrow
    simp [← hk, Graph.empty]
  · intro i j hi hj
    rw [mget_empty, mget_empty]
    have hs : (Graph.empty gt s).n = s := rfl
    rw [hs] at hi hj
    simp only [if_pos (And.intro hi hj), if_pos (And.intro hj hi)]
    by_cases hij : i = j
    · subst hij; rfl
    · rw [if_neg hij, if_neg (fun h => hij h.symm)]

theorem mget_add_vertex_matrix (adjm : List (List (Option ℚ))) (nn k : ℕ)
    (hlen : adjm.length = nn) (hrow : ∀ row ∈ adjm, row.length = nn)
    (hk : nn ≤ k) (i j : ℕ) :
    mget ((adjm.map fun row => row ++ List.replicate (k + 1 - nn) none) ++
      (List.range' nn (k + 1 - nn)).map (fun i0 =>
        (List.range (k + 1)).map fun j0 => if j0 = i0 then some (0 : ℚ) else none))
      i j =
    (if i < nn then (if j < nn then mget adjm i j else none)
     else if i < k + 1 ∧ j < k + 1 ∧ j = i then some 0 else none) := by
  have hlm : (adjm.map fun row => row ++ List.replicate (k + 1 - nn) none).length = nn := by
    simp [hlen]
  unfold mget
  by_cases hi : i < nn
  · have hig : i < adjm.length := by omega
    have h1 : ((adjm.map fun row => row ++ List.replicate (k + 1 - nn) none) ++
        (List.range' nn (k + 1 - nn)).map (fun i0 =>
          (List.range (k + 1)).map fun j0 =>
            if j0 = i0 then some (0 : ℚ) else none)).getD i [] =
        adjm.get ⟨i, hig⟩ ++ List.replicate (k + 1 - nn) none := by
      rw [List.getD_eq_getElem?_getD, List.getElem?_append, if_pos (by omega),
        List.getElem?_map, List.getElem?_eq_getElem hig]
      rfl
    have h2 : adjm.getD i [] = adjm.get ⟨i, hig⟩ := by
      rw [List.getD_eq_getElem?_getD, List.getElem?_eq_getElem hig]
      rfl
    have hrl : (adjm.get ⟨i, hig⟩).length = nn := hrow _ (List.get_mem adjm i hig)
    rw [h1, if_pos hi]
    by_cases hj : j < nn
    · rw [if_pos hj, h2, List.getD_eq_getElem?_getD, List.getD_eq_getElem?_getD,
        List.getElem?_append, if_pos (by omega)]
    · rw [if_neg hj, List.getD_eq_getElem?_getD, List.getElem?_append,
        if_neg (by omega), List.getElem?_replicate]
      split <;> rfl
  · have h1 : ((adjm.map fun row => row ++ List.replicate (k + 1 - nn) none) ++
        (List.range' nn (k + 1 - nn)).map (fun i0 =>
          (List.range (k + 1)).map fun j0 =>
            if j0 = i0 then some (0 : ℚ) else none)).getD i [] =
        (if i < k + 1 then
          (List.range (k + 1)).map (fun j0 => if j0 = i then some (0 : ℚ) else none)
        else []) := by
      rw [List.getD_eq_getElem?_getD, List.getElem?_append, if_neg (by omega),
        List.getElem?_map, hlm]
      by_cases hik : i < k + 1
      · rw [List.getElem?_range' _ _ (show i - nn < k + 1 - nn by omega)]
        have hii : nn + 1 * (i - nn) = i := by omega
        rw [hii, if_pos hik]
        rfl
      · rw [List.getElem?_eq_none (by simp [List.length_range']; omega),
          if_neg hik]
        rfl
    rw [h1, if_neg hi]
    by_cases hik : i < k + 1
    · rw [if_pos hik]
      by_cases hj : j < k + 1
      · rw [List.getD_eq_getElem?_getD, List.getElem?_map, List.getElem?_range hj]
        by_cases hji : j = i <;> simp [hji, hik, hj]
      · rw [getD_ge_length _ _ _ (by simp; omega)]
        rw [if_neg (by intro hc; exact hj hc.2.1)]
    · rw [if_neg hik, if_neg (by intro hc; exact hik hc.1)]
      simp [List.getD_eq_getElem?_getD]

theorem symwf_add_vertex (g : Graph) (k : ℕ) (h : SymWF g) :
    SymWF (g.add_vertex k) := by
  obtain ⟨hlen, hrow, hsym⟩ := h
  unfold Graph.add_vertex
  by_cases hk : k < g.n
  · rw [if_pos hk]; exact ⟨hlen, hrow, hsym⟩
  · rw [if_neg hk]
    have hk2 : g.n ≤ k := Nat.le_of_not_lt hk
    refine ⟨?_, ?_, ?_⟩
    · simp only [List.length_append, List.length_map, List.length_range', hlen]
      omega
    · intro row hr
      rcases List.mem_append.mp hr with hr | hr
      · obtain ⟨row0, hr0, hrs⟩ := List.mem_map.mp hr
        have := hrow row0 hr0
        simp only [← hrs, List.length_append, List.length_replicate, this]
        omega
      · obtain ⟨i0, _, hrs⟩ := List.mem_map.mp hr
        simp only [← hrs, List.length_map, List.length_range]
    · intro i j hi hj
      simp only at hi hj
      rw [mget_add_vertex_matrix g.adj_matrix g.n k hlen hrow hk2 i j,
        mget_add_vertex_matrix g.adj_matrix g.n k hlen hrow hk2 j i]
      by_cases hin : i < g.n
      · by_cases hjn : j < g.n
        · simp only [if_pos hin, if_pos hjn]
          exact hsym i j hin hjn
        · rw [if_pos hin, if_neg hjn, if_neg hjn,
            if_neg (show ¬ (j < k + 1 ∧ i < k + 1 ∧ i = j) by omega)]
      · by_cases hjn : j < g.n
        · rw [if_neg hin, if_pos hjn, if_neg hin,
            if_neg (show ¬ (i < k + 1 ∧ j < k + 1 ∧ j = i) by omega)]
        · rw [if_neg hin, if_neg hjn]
          by_cases hij : j = i
          · subst hij
            rfl
          · rw [if_neg (by omega), if_neg (by omega)]

theorem getD_row_length (m : List (List (Option ℚ))) (nn : ℕ)
    (hlen : m.length = nn) (hrow : ∀ row ∈ m, row.length = nn) (i : ℕ)
    (hi : i < nn) :
    (m.getD i []).length = nn := by
  rw [List.getD_eq_getElem?_getD, List.getElem?_eq_getElem (by omega)]
  exact hrow _ (List.getElem_mem (by omega))

theorem mset_rows (m : List (List (Option ℚ))) (nn i j : ℕ) (y : Option ℚ)
    (hrow : ∀ row ∈ m, row.length = nn) :
    ∀ r ∈ mset m i j y, r.length = nn := by
  intro r hr
  unfold mset at hr
  by_cases hi : i < m.length
  · rcases List.mem_or_eq_of_mem_set hr with hmem | heq
    · exact hrow r hmem
    · rw [heq, List.length_set]
      rw [List.getD_eq_getElem?_getD, List.getElem?_eq_getElem hi]
      exact hrow _ (List.getElem_mem hi)
  · rw [List.set_eq_of_length_le (by omega)] at hr
    exact hrow r hr

theorem mget_mset_pair (m : List (List (Option ℚ))) (nn a b : ℕ) (x : Option ℚ)
    (hlen : m.length = nn) (hrow : ∀ row ∈ m, row.length = nn)
    (ha : a < nn) (hb : b < nn) (i j : ℕ) :
    mget (mset (mset m a b x) b a x) i j =
      if (i = b ∧ j = a) ∨ (i = a ∧ j = b) then x else mget m i j := by
  have hlen1 : (mset m a b x).length = nn := by simp [mset, hlen]
  have hrowb : ((mset m a b x).getD b []).length = nn :=
    getD_row_length _ nn hlen1 (mset_rows m nn a b x hrow) b hb
  by_cases h1 : i = b ∧ j = a
  · obtain ⟨hib, hja⟩ := h1
    subst hib; subst hja
    rw [if_pos (Or.inl ⟨rfl, rfl⟩)]
    exact mget_mset_self _ _ _ _ (by omega) (by omega)
  · rw [mget_mset_ne _ _ _ _ _ _ (by tauto)]
    by_cases h2 : i = a ∧ j = b
    · obtain ⟨hia, hjb⟩ := h2
      subst hia; subst hjb
      rw [if_pos (Or.inr ⟨rfl, rfl⟩)]
      refine mget_mset_self _ _ _ _ (by omega) ?_
      rw [getD_row_length m nn hlen hrow i ha]
      exact hb
    · rw [if_neg (by tauto)]
      exact mget_mset_ne _ _ _ _ _ _ (by tauto)

theorem symwf_mset_pair (gt : GraphOrientationType) (nn a b : ℕ)
    (m : List (List (Option ℚ))) (x : Option ℚ)
    (h : SymWF ⟨gt, nn, m⟩) (ha : a < nn) (hb : b < nn) :
    SymWF ⟨gt, nn, mset (mset m a b x) b a x⟩ := by
  obtain ⟨hlen, hrow, hsym⟩ := h
  simp only at hlen hrow hsym
  refine ⟨?_, ?_, ?_⟩
  · simp [mset, hlen]
  · exact fun row hr =>
      mset_rows _ nn b a x (mset_rows m nn a b x hrow) row hr
  · intro i j hi hj
    simp only at hi hj ⊢
    rw [mget_mset_pair m nn a b x hlen hrow ha hb i j,
      mget_mset_pair m nn a b x hlen hrow ha hb j i]
    by_cases hc : (i = b ∧ j = a) ∨ (i = a ∧ j = b)
    · rw [if_pos hc, if_pos (by tauto)]
    · rw [if_neg hc, if_neg (by tauto)]
      exact hsym i j hi hj

theorem getD_eraseIdx_col {α : Type} (row : List α) (k j : ℕ) (d : α) :
    (row.eraseIdx k).getD j d = row.getD (if j < k then j else j + 1) d := by
  by_cases hjk : j < k
  · rw [if_pos hjk, List.getD_eq_getElem?_getD, List.getElem?_eraseIdx,
      if_pos hjk, List.getD_eq_getElem?_getD]
  · rw [if_neg hjk, List.getD_eq_getElem?_getD, List.getElem?_eraseIdx,
      if_neg hjk, List.getD_eq_getElem?_getD]

theorem mget_remove_matrix (m : List (List (Option ℚ))) (k i j : ℕ) :
    mget ((m.eraseIdx k).map fun row => row.eraseIdx k) i j =
      mget m (if i < k then i else i + 1) (if j < k then j else j + 1) := by
  unfold mget
  have h1 : ((m.eraseIdx k).map fun row => row.eraseIdx k).getD i [] =
      (m.getD (if i < k then i else i + 1) []).eraseIdx k := by
    by_cases hik : i < k
    · rw [if_pos hik, List.getD_eq_getElem?_getD, List.getElem?_map,
        List.getElem?_eraseIdx, if_pos hik, List.getD_eq_getElem?_getD]
      cases m[i]? <;> rfl
    · rw [if_neg hik, List.getD_eq_getElem?_getD, List.getElem?_map,
        List.getElem?_eraseIdx, if_neg hik, List.getD_eq_getElem?_getD]
      cases m[i + 1]? <;> rfl
  rw [h1, getD_eraseIdx_col]

theorem symwf_remove_vertex (g : Graph) (k : ℕ) (h : SymWF g) :
    SymWF (g.remove_vertex k) := by
  obtain ⟨hlen, hrow, hsym⟩ := h
  unfold Graph.remove_vertex
  by_cases hk : k < g.n
  · rw [if_pos hk]
    refine ⟨?_, ?_, ?_⟩
    · simp only [List.length_map, List.length_eraseIdx, hlen, if_pos hk]
    · intro row hr
      obtain ⟨row0, hr0, heq⟩ := List.mem_map.mp hr
      have h0 := hrow row0 (List.mem_of_mem_eraseIdx hr0)
      simp only [← heq, List.length_eraseIdx, h0, if_pos hk]
    · intro i j hi hj
      simp only at hi hj ⊢
      rw [mget_remove_matrix, mget_remove_matrix]
      apply hsym <;> (split <;> omega)
  · rw [if_neg hk]
    exact ⟨hlen, hrow, hsym⟩

theorem add_vertex_graph_type (g : Graph) (k : ℕ) :
    (g.add_vertex k).graph_type = g.graph_type := by
  unfold Graph.add_vertex
  split <;> rfl

theorem add_vertex_n (g : Graph) (k : ℕ) :
    (g.add_vertex k).n = if k < g.n then g.n else k + 1 := by
  unfold Graph.add_vertex
  split <;> rfl

theorem symwf_add_edge (g : Graph) (a b : ℕ) (w : ℚ)
    (hu : g.graph_type = .UNDIRECTED) (h : SymWF g) :
    SymWF (g.add_edge a b w) := by
  unfold Graph.add_edge
  set g1 := if g.n ≤ max a b then g.add_vertex (max a b) else g with hg1
  have h1 : SymWF g1 := by
    rw [hg1]; split
    · exact symwf_add_vertex g _ h
    · exact h
  have hgt1 : g1.graph_type = GraphOrientationType.UNDIRECTED := by
    rw [hg1]; split
    · rw [add_vertex_graph_type]; exact hu
    · exact hu
  have hab : a < g1.n ∧ b < g1.n := by
    rw [hg1]; split
    case isTrue hc =>
      rw [add_vertex_n, if_neg (by omega)]
      exact ⟨Nat.lt_succ_of_le (Nat.le_max_left a b),
        Nat.lt_succ_of_le (Nat.le_max_right a b)⟩
    case isFalse hc =>
      push_neg at hc
      exact ⟨lt_of_le_of_lt (Nat.le_max_left a b) hc,
        lt_of_le_of_lt (Nat.le_max_right a b) hc⟩
  obtain ⟨gt1, n1, m1⟩ := g1
  simp only at hgt1 hab h1 ⊢
  subst hgt1
  rw [if_pos rfl]
  exact symwf_mset_pair GraphOrientationType.UNDIRECTED n1 a b m1 (some w)
    h1 hab.1 hab.2

theorem symwf_remove_edge (g : Graph) (a b : ℕ)
    (hu : g.graph_type = .UNDIRECTED) (h : SymWF g) :
    SymWF (g.remove_edge a b) := by
  unfold Graph.remove_edge
  by_cases hab : a < g.n ∧ b < g.n
  · rw [if_pos hab]
    obtain ⟨gt, n, m⟩ := g
    simp only at hu h hab ⊢
    subst hu
    rw [if_pos rfl]
    exact symwf_mset_pair GraphOrientationType.UNDIRECTED n a b m none
      h hab.1 hab.2
  · rw [if_neg hab]
    exact h

theorem add_edge_graph_type (g : Graph) (a b : ℕ) (w : ℚ) :
    (g.add_edge a b w).graph_type = g.graph_type := by
  unfold Graph.add_edge
  dsimp only
  set g1 := if g.n ≤ max a b then g.add_vertex (max a b) else g with hg1
  have h1 : g1.graph_type = g.graph_type := by
    rw [hg1]; split
    · exact add_vertex_graph_type g _
    · rfl
  split <;> simpa using h1

theorem remove_vertex_graph_type (g : Graph) (k : ℕ) :
    (g.remove_vertex k).graph_type = g.graph_type := by
  unfold Graph.remove_vertex
  split <;> rfl

theorem remove_edge_graph_type (g : Graph) (a b : ℕ) :
    (g.remove_edge a b).graph_type = g.graph_type := by
  unfold Graph.remove_edge
  dsimp only
  split
  · split <;> rfl
  · rfl

theorem applyOp_graph_type (g : Graph) (op : GraphOp) :
    (applyOp g op).graph_type = g.graph_type := by
  cases op with
  | addVertex k => exact add_vertex_graph_type g k
  | addEdge a b w => exact add_edge_graph_type g a b w
  | removeVertex k => exact remove_vertex_graph_type g k
  | removeEdge a b => exact remove_edge_graph_type g a b

theorem symwf_applyOp (g : Graph) (op : GraphOp)
    (hu : g.graph_type = .UNDIRECTED) (h : SymWF g) : SymWF (applyOp g op) := by
  cases op with
  | addVertex k => exact symwf_add_vertex g k h
  | addEdge a b w => exact symwf_add_edge g a b w hu h
  | removeVertex k => exact symwf_remove_vertex g k h
  | removeEdge a b => exact symwf_remove_edge g a b hu h

theorem symwf_applyOps (g : Graph) (ops : List GraphOp)
    (hu : g.graph_type = .UNDIRECTED) (h : SymWF g) : SymWF (applyOps g ops) := by
  induction ops generalizing g with
  | nil => exact h
  | cons op ops ih =>
    exact ih (applyOp g op) (by rw [applyOp_graph_type]; exact hu)
      (symwf_applyOp g op hu h)

/-- C7: starting from any empty undirected graph, after any sequence of
add_vertex, add_edge, remove_vertex and remove_edge operations the adjacency
matrix stays symmetric on all in-range index pairs. -/
theorem c7_undirected_symmetry (s : ℕ) (ops : List GraphOp) (i j : ℕ)
    (hi : i < (applyOps (Graph.empty .UNDIRECTED s) ops).n)
    (hj : j < (applyOps (Graph.empty .UNDIRECTED s) ops).n) :
    mget (applyOps (Graph.empty .UNDIRECTED s) ops).adj_matrix i j =
      mget (applyOps (Graph.empty .UNDIRECTED s) ops).adj_matrix j i :=
  (symwf_applyOps (Graph.empty .UNDIRECTED s) ops rfl
    (symwf_empty .UNDIRECTED s)).2.2 i j hi hj

/-- C7 witness: a concrete sequence of an edge insertion, a vertex extension
and a vertex removal keeps the matrix symmetric at the pair (0, 1). -/
theorem c7_undirected_symmetry_witness :
    mget (applyOps (Graph.empty .UNDIRECTED 2)
      [.addEdge 0 1 5, .addVertex 3, .removeVertex 0]).adj_matrix 0 1 =
      mget (applyOps (Graph.empty .UNDIRECTED 2)
        [.addEdge 0 1 5, .addVertex 3, .removeVertex 0]).adj_matrix 1 0 :=
  c7_undirected_symmetry 2 [.addEdge 0 1 5, .addVertex 3, .removeVertex 0] 0 1
    (by decide) (by decide)

/-! ## Edmonds-Karp max flow (src/lab4/flow.py)

FlowEdge objects live inside adjacency lists and are mutated in place; the
embedding addresses an edge by its location (vertex, index in that vertex's
adjacency list), which is exactly what the rev_i twin index is meant to
denote.  The forward_edges aliases kept for the final report become a list
of such locations. -/

/-- FlowEdge dataclass: target vertex (named to in Python, toV here because
to is a Lean keyword), index of the paired reverse edge in the target's
adjacency list, capacity and current flow. -/
structure FlowEdge : Type where
  toV : ℕ
  rev_i : ℕ
  capacity : ℚ
  flow : ℚ
deriving DecidableEq

/-- FlowEdge.residual_capacity. -/
def FlowEdge.residual_capacity (e : FlowEdge) : ℚ := e.capacity - e.flow

/-- Placeholder edge used for list lookups that Python's invariants keep in
range. -/
def dummyFlowEdge : FlowEdge := ⟨0, 0, 0, 0⟩

/-- Adjacency-list residual network. -/
abbrev FlowGraph : Type := List (List FlowEdge)

/-- Appends an edge to the adjacency list of vertex v. -/
def appendEdge (graph : FlowGraph) (v : ℕ) (e : FlowEdge) : FlowGraph :=
  graph.set v ((graph.getD v []) ++ [e])

/-- Residual-network construction of edmonds_karp, transcribed verbatim: for
each input edge (v, u, cap) it creates forward_edge = FlowEdge(v,
len(graph[v]), cap) and backward_edge = FlowEdge(u, len(graph[u]), 0),
appends them to graph[v] and graph[u] respectively, and remembers the
location of the forward edge in input order. -/
def buildFlowGraph (n : ℕ) (edges : List (ℕ × ℕ × ℚ)) :
    FlowGraph × List (ℕ × ℕ) :=
  edges.foldl
    (fun (st : FlowGraph × List (ℕ × ℕ)) e =>
      let graph := st.1
      let v := e.1
      let u := e.2.1
      let cap := e.2.2
      let forward_edge : FlowEdge := ⟨v, (graph.getD v []).length, cap, 0⟩
      let backward_edge : FlowEdge := ⟨u, (graph.getD u []).length, 0, 0⟩
      let graph1 := appendEdge graph v forward_edge
      let graph2 := appendEdge graph1 u backward_edge
      (graph2, st.2 ++ [(v, (graph.getD v []).length)]))
    (List.replicate n [], [])

/-- One BFS scan over the adjacency list of the dequeued vertex v, with i
the index of the current edge in that list: skip saturated edges, skip
already-reached vertices and the source, record the parent entry (v, i)
meaning previous vertex v via edge graph[v][i], and enqueue. -/
def flowScan (source v : ℕ) :
    List FlowEdge → ℕ → List (Option (ℕ × ℕ)) → List ℕ →
      List (Option (ℕ × ℕ)) × List ℕ
  | [], _, par, q => (par, q)
  | e :: rest, i, par, q =>
    if e.residual_capacity ≤ 0 then flowScan source v rest (i + 1) par q
    else if (par.getD e.toV none).isSome ∨ e.toV = source then
      flowScan source v rest (i + 1) par q
    else
      flowScan source v rest (i + 1) (par.set e.toV (some (v, i))) (q ++ [e.toV])

/-- BFS of edmonds_karp: while the queue is nonempty and the sink has no
parent, dequeue and scan. -/
def flowBFS (graph : FlowGraph) (source sink : ℕ) :
    ℕ → List ℕ → List (Option (ℕ × ℕ)) → List (Option (ℕ × ℕ))
  | 0, _, par => par
  | _ + 1, [], par => par
  | fuel + 1, v :: rest, par =>
    if (par.getD sink none).isSome then par
    else
      let st := flowScan source v (graph.getD v []) 0 par rest
      flowBFS graph source sink fuel st.2 st.1

/-- Walk from the sink back to the source accumulating the bottleneck
residual capacity; a missing parent entry would be Python unpacking None. -/
def flowBottleneck (graph : FlowGraph) (par : List (Option (ℕ × ℕ)))
    (source : ℕ) : ℕ → ℕ → WithTop ℚ → Option (WithTop ℚ)
  | 0, _, _ => none
  | fuel + 1, cur, acc =>
    if cur = source then some acc
    else
      match par.getD cur none with
      | none => none
      | some (pv, i) =>
        let e := (graph.getD pv []).getD i dummyFlowEdge
        flowBottleneck graph par source fuel pv
          (min acc ((e.residual_capacity : WithTop ℚ)))

/-- Writes one edge of the residual network. -/
def setFlowEdge (graph : FlowGraph) (v i : ℕ) (e : FlowEdge) : FlowGraph :=
  graph.set v ((graph.getD v []).set i e)

/-- Walk from the sink back to the source pushing path_flow along the path:
each traversed edge gains flow and the edge reached through its rev_i twin
index loses it, reading the graph again after the first write exactly as the
aliased Python objects do. -/
def flowAugment (par : List (Option (ℕ × ℕ))) (source : ℕ) (pf : ℚ) :
    ℕ → ℕ → FlowGraph → Option FlowGraph
  | 0, _, _ => none
  | fuel + 1, cur, graph =>
    if cur = source then some graph
    else
      match par.getD cur none with
      | none => none
      | some (pv, i) =>
        let e := (graph.getD pv []).getD i dummyFlowEdge
        let graph1 := setFlowEdge graph pv i { e with flow := e.flow + pf }
        let e2 := (graph1.getD e.toV []).getD e.rev_i dummyFlowEdge
        let graph2 := setFlowEdge graph1 e.toV e.rev_i { e2 with flow := e2.flow - pf }
        flowAugment par source pf fuel pv graph2

/-- Outer while-loop of edmonds_karp: repeat BFS, stop when the sink is not
reached, otherwise augment along the found path and accumulate. -/
def ekLoop (n source sink : ℕ) :
    ℕ → FlowGraph → WithTop ℚ → Option (FlowGraph × WithTop ℚ)
  | 0, _, _ => none
  | fuel + 1, graph, max_flow =>
    let par := flowBFS graph source sink (n + 1) [source]
      (List.replicate n none)
    match par.getD sink none with
    | none => some (graph, max_flow)
    | some _ =>
      match flowBottleneck graph par source (n + 1) sink ⊤ with
      | none => none
      | some ⊤ => none
      | some (pf : ℚ) =>
        match flowAugment par source pf (n + 1) sink graph with
        | none => none
        | some graph2 => ekLoop n source sink fuel graph2 (max_flow + (pf : WithTop ℚ))

/-- edmonds_karp: degenerate guards, residual construction, the search loop
and the final report of forward-edge flows in input order.  The result
edges reuse the FlowEdge record with the input endpoints in the first two
fields, as the Python code does. -/
def edmondsKarp (n : ℕ) (edges : List (ℕ × ℕ × ℚ)) (source sink : ℕ)
    (fuel : ℕ) : Option (WithTop ℚ × List FlowEdge) :=
  if n = 0 ∨ ¬ source < n ∨ ¬ sink < n then some (0, [])
  else if source = sink then
    some (0, edges.map fun e => ⟨e.1, e.2.1, e.2.2, 0⟩)
  else
    let built := buildFlowGraph n edges
    match ekLoop n source sink fuel built.1 0 with
    | none => none
    | some (graphF, max_flow) =>
      some (max_flow,
        (edges.zip built.2).map fun el =>
          ⟨el.1.1, el.1.2.1, el.1.2.2,
            ((graphF.getD el.2.1 []).getD el.2.2 dummyFlowEdge).flow⟩)

/-- C1: on the spec's flow network (n=4, source 0, sink 3, edges 0→1:3,
0→2:2, 1→3:2, 2→3:3, 1→2:1) edmonds_karp terminates and returns max flow 0,
not the 4 the specification promises: the residual builder creates every
forward edge pointing back at its own tail, so the BFS never leaves the
source. -/
theorem c1_flow_returns_zero :
    (edmondsKarp 4 [(0, 1, 3), (0, 2, 2), (1, 3, 2), (2, 3, 3), (1, 2, 1)]
      0 3 10).map Prod.fst = some 0 ∧
    ¬ (edmondsKarp 4 [(0, 1, 3), (0, 2, 2), (1, 3, 2), (2, 3, 3), (1, 2, 1)]
      0 3 10).map Prod.fst = some 4 := by
  constructor <;>
    norm_num [edmondsKarp, ekLoop, flowBFS, flowScan, buildFlowGraph,
      appendEdge, FlowEdge.residual_capacity, dummyFlowEdge]

/-- C2: for the single input edge (0, 1, 5) with n = 2 the residual network
is built wrong: the adjacency list of vertex 0 holds the forward edge with
target 0 (its own tail, not 1) and rev_i 0 pointing at itself, and vertex
1's list holds the backward edge with target 1 and rev_i 0; in particular no
edge in vertex 0's list targets vertex 1, contradicting the claimed
forward/backward pairing through twin indices. -/
theorem c2_residual_builder_selfloops :
    (buildFlowGraph 2 [(0, 1, 5)]).1 =
      [[⟨0, 0, 5, 0⟩], [⟨1, 0, 0, 0⟩]] ∧
    (∀ e ∈ ((buildFlowGraph 2 [(0, 1, 5)]).1.getD 0 []), ¬ e.toV = 1) :=
  ⟨by decide, by decide⟩

/-! ## A-star grid pathfinding (src/lab4/pathfinding.py)

Coordinates are integer pairs; the heuristic's value type is a parameter so
that the rational-valued Manhattan heuristic and the real-valued Euclidean
heuristic (math.hypot, an irrational square root modelled exactly on ℝ)
instantiate the same embedding.  The dist and prev dictionaries become
association lists; wall-clock instrumentation is not modelled. -/

/-- Grid coordinate (row, col), a Python 2-tuple of ints. -/
abbrev Coord : Type := ℤ × ℤ

/-- Grid of integer cell costs; 0 is a wall. -/
abbrev Grid : Type := List (List ℤ)

/-- PathFindingResult without the wall-clock runtime field. -/
structure PathFindingResult (α : Type) : Type where
  length : WithTop α
  path : List Coord
  visited_count : ℕ
  visited_percent : ℚ
deriving DecidableEq

/-- Manhattan heuristic: abs(a0 - b0) + abs(a1 - b1). -/
def manhattan (a b : Coord) : ℚ :=
  |((a.1 - b.1 : ℤ) : ℚ)| + |((a.2 - b.2 : ℤ) : ℚ)|

/-- Dictionary lookup on an association list. -/
def alookup {β : Type} : List (Coord × β) → Coord → Option β
  | [], _ => none
  | (k, v) :: rest, c => if k = c then some v else alookup rest c

/-- Dictionary insert-or-update on an association list. -/
def aupdate {β : Type} : List (Coord × β) → Coord → β → List (Coord × β)
  | [], c, x => [(c, x)]
  | (k, v) :: rest, c, x =>
    if k = c then (c, x) :: rest else (k, v) :: aupdate rest c x

/-- Python tuple order on the heap entries (f_score, dist, coord). -/
def aEntryLt {α : Type} [LinearOrder α] (x y : α × α × Coord) : Bool :=
  if x.1 < y.1 then true
  else if y.1 < x.1 then false
  else if x.2.1 < y.2.1 then true
  else if y.2.1 < x.2.1 then false
  else if x.2.2.1 < y.2.2.1 then true
  else if y.2.2.1 < x.2.2.1 then false
  else decide (x.2.2.2 < y.2.2.2)

/-- Number of grid rows. -/
def gridRows (grid : Grid) : ℕ := grid.length

/-- Number of grid columns: len(grid[0]) if rows else 0. -/
def gridCols (grid : Grid) : ℕ :=
  if grid.length = 0 then 0 else (grid.getD 0 []).length

/-- Cell value at possibly negative coordinates known to be in bounds when
read. -/
def cellVal (grid : Grid) (r c : ℤ) : ℤ :=
  (grid.getD r.toNat []).getD c.toNat 0

/-- in_bounds. -/
def inBoundsB (grid : Grid) (r c : ℤ) : Bool :=
  decide (0 ≤ r ∧ r < (gridRows grid : ℤ) ∧ 0 ≤ c ∧ c < (gridCols grid : ℤ))

/-- is_walkable: the stored value is positive. -/
def isWalkableB (grid : Grid) (r c : ℤ) : Bool :=
  decide (0 < cellVal grid r c)

/-- Count of walkable cells across the whole grid. -/
def totalWalkable (grid : Grid) : ℕ :=
  ((List.range (gridRows grid)).map fun r =>
    ((List.range (gridCols grid)).filter fun c =>
      isWalkableB grid (r : ℤ) (c : ℤ)).length).sum

/-- Comparison new_dist < dist.get(coord, inf). -/
def ltOptD {α : Type} [LinearOrder α] (x : α) (o : Option α) : Bool :=
  match o with
  | none => true
  | some d => decide (x < d)

/-- Comparison current_dist > dist.get(coord, inf). -/
def gtOptD {α : Type} [LinearOrder α] (x : α) (o : Option α) : Bool :=
  match o with
  | none => false
  | some d => decide (d < x)

/-- Search state of a_star: dist and prev dictionaries, the heap and the
visited counter. -/
structure AState (α : Type) : Type where
  dist : List (Coord × α)
  prevd : List (Coord × Coord)
  queue : List (α × α × Coord)
  visited_count : ℕ

/-- Neighbor relaxation of one popped cell over the four moves, in the
source's move order. -/
def aStarStep {α : Type} [LinearOrderedField α] (grid : Grid) (goal : Coord)
    (h : Coord → Coord → α) (cur : Coord) (cur_dist : α) (st : AState α) :
    AState α :=
  ([((1 : ℤ), (0 : ℤ)), (-1, 0), (0, 1), (0, -1)]).foldl
    (fun s mv =>
      let nr := cur.1 + mv.1
      let nc := cur.2 + mv.2
      if inBoundsB grid nr nc && isWalkableB grid nr nc then
        let new_dist := cur_dist + ((cellVal grid nr nc : ℤ) : α)
        if ltOptD new_dist (alookup s.dist (nr, nc)) then
          { s with
            dist := aupdate s.dist (nr, nc) new_dist
            prevd := aupdate s.prevd (nr, nc) cur
            queue := s.queue ++ [(new_dist + h (nr, nc) goal, new_dist, (nr, nc))] }
        else s
      else s)
    st

/-- Main loop of a_star with the lazy-deletion discipline and the
break-at-goal. -/
def aStarLoop {α : Type} [LinearOrderedField α] (grid : Grid) (goal : Coord)
    (h : Coord → Coord → α) : ℕ → AState α → AState α
  | 0, st => st
  | fuel + 1, st =>
    match popMin aEntryLt st.queue with
    | none => st
    | some ((_, cur_dist, cur), rest) =>
      let st1 : AState α := { st with queue := rest }
      if gtOptD cur_dist (alookup st1.dist cur) then aStarLoop grid goal h fuel st1
      else
        let st2 : AState α := { st1 with visited_count := st1.visited_count + 1 }
        if cur = goal then st2
        else aStarLoop grid goal h fuel (aStarStep grid goal h cur cur_dist st2)

/-- Path reconstruction of a_star, transcribed verbatim: while cur, append
cur and set cur to prev[cur].  A coordinate is a nonempty tuple and hence
always truthy, so the loop can only stop by the dictionary lookup failing
(a KeyError, modelled as none) or by running forever (fuel exhaustion, also
none). -/
def reconstructPath (prevd : List (Coord × Coord)) : ℕ → Coord → Option (List Coord)
  | 0, _ => none
  | fuel + 1, cur =>
    match alookup prevd cur with
    | none => none
    | some p => Option.map (fun rest => cur :: rest) (reconstructPath prevd fuel p)

/-- a_star. -/
def aStar (α : Type) [LinearOrderedField α] (grid : Grid) (start goal : Coord)
    (h : Coord → Coord → α) (fuel : ℕ) : Option (PathFindingResult α) :=
  if inBoundsB grid start.1 start.2 && inBoundsB grid goal.1 goal.2 then
    if isWalkableB grid start.1 start.2 && isWalkableB grid goal.1 goal.2 then
      let total_walkable := totalWalkable grid
      let st0 : AState α := ⟨[(start, 0)], [], [(0 + h start goal, 0, start)], 0⟩
      let st := aStarLoop grid goal h fuel st0
      let visited_percent : ℚ :=
        if total_walkable = 0 then 0
        else ((st.visited_count : ℚ) / (total_walkable : ℚ)) * 100
      match alookup st.dist goal with
      | none => some ⟨⊤, [], st.visited_count, visited_percent⟩
      | some d =>
        match reconstructPath st.prevd fuel goal with
        | none => none
        | some path => some ⟨(d : WithTop α), path.reverse, st.visited_count, visited_percent⟩
    else some ⟨⊤, [], 0, 0⟩
  else some ⟨⊤, [], 0, 0⟩

/-- The reconstruction loop never produces a value: every iteration keeps
the loop condition true, so the only outcomes are a KeyError or divergence. -/
theorem reconstructPath_none (prevd : List (Coord × Coord)) :
    ∀ (fuel : ℕ) (cur : Coord), reconstructPath prevd fuel cur = none
  | 0, _ => rfl
  | fuel + 1, cur => by
    rw [reconstructPath]
    cases alookup prevd cur with
    | none => rfl
    | some p =>
      show Option.map (fun rest => cur :: rest) (reconstructPath prevd fuel p) = none
      rw [reconstructPath_none prevd fuel p]
      rfl

/-- Whatever the grid, endpoints, heuristic, value type and fuel, a_star
never returns a nonempty path: any returned result is an unreachable-style
result with infinite length and empty path, and any run that finds the goal
dies in reconstruction. -/
theorem aStar_never_returns_a_path (α : Type) [LinearOrderedField α]
    (grid : Grid) (start goal : Coord) (h : Coord → Coord → α) (fuel : ℕ) :
    ∀ r, aStar α grid start goal h fuel = some r →
      r.path = [] ∧ r.length = ⊤ := by
  intro r hr
  unfold aStar at hr
  by_cases h1 : (inBoundsB grid start.1 start.2 && inBoundsB grid goal.1 goal.2) = true
  · rw [if_pos h1] at hr
    by_cases h2 : (isWalkableB grid start.1 start.2 && isWalkableB grid goal.1 goal.2) = true
    · rw [if_pos h2] at hr
      simp only at hr
      cases hl : alookup (aStarLoop grid goal h fuel
          ⟨[(start, 0)], [], [(0 + h start goal, 0, start)], 0⟩).dist goal with
      | none =>
        rw [hl] at hr
        cases hr
        exact ⟨rfl, rfl⟩
      | some d =>
        rw [hl, reconstructPath_none] at hr
        cases hr
    · rw [if_neg h2] at hr
      cases hr
      exact ⟨rfl, rfl⟩
  · rw [if_neg h1] at hr
    cases hr
    exact ⟨rfl, rfl⟩

/-! ## Concrete evaluation of the Manhattan run on the 3 by 3 grid -/

/-- The concrete all-ones grid of the specification's scenario 5. -/
def c3grid : Grid := [[1, 1, 1], [1, 1, 1], [1, 1, 1]]

def c3st0 : AState ℚ := ⟨[(((0 : ℤ), (0 : ℤ)), 0)], [], [(4, 0, ((0 : ℤ), (0 : ℤ)))], 0⟩
def c3st1 : AState ℚ := ⟨[(((0 : ℤ), (0 : ℤ)), 0), (((1 : ℤ), (0 : ℤ)), 1), (((0 : ℤ), (1 : ℤ)), 1)], [(((1 : ℤ), (0 : ℤ)), ((0 : ℤ), (0 : ℤ))), (((0 : ℤ), (1 : ℤ)), ((0 : ℤ), (0 : ℤ)))], [(4, 1, ((1 : ℤ), (0 : ℤ))), (4, 1, ((0 : ℤ), (1 : ℤ)))], 1⟩
def c3st2 : AState ℚ := ⟨[(((0 : ℤ), (0 : ℤ)), 0), (((1 : ℤ), (0 : ℤ)), 1), (((0 : ℤ), (1 : ℤ)), 1), (((1 : ℤ), (1 : ℤ)), 2), (((0 : ℤ), (2 : ℤ)), 2)], [(((1 : ℤ), (0 : ℤ)), ((0 : ℤ), (0 : ℤ))), (((0 : ℤ), (1 : ℤ)), ((0 : ℤ), (0 : ℤ))), (((1 : ℤ), (1 : ℤ)), ((0 : ℤ), (1 : ℤ))), (((0 : ℤ), (2 : ℤ)), ((0 : ℤ), (1 : ℤ)))], [(4, 1, ((1 : ℤ), (0 : ℤ))), (4, 2, ((1 : ℤ), (1 : ℤ))), (4, 2, ((0 : ℤ), (2 : ℤ)))], 2⟩
def c3st3 : AState ℚ := ⟨[(((0 : ℤ), (0 : ℤ)), 0), (((1 : ℤ), (0 : ℤ)), 1), (((0 : ℤ), (1 : ℤ)), 1), (((1 : ℤ), (1 : ℤ)), 2), (((0 : ℤ), (2 : ℤ)), 2), (((2 : ℤ), (0 : ℤ)), 2)], [(((1 : ℤ), (0 : ℤ)), ((0 : ℤ), (0 : ℤ))), (((0 : ℤ), (1 : ℤ)), ((0 : ℤ), (0 : ℤ))), (((1 : ℤ), (1 : ℤ)), ((0 : ℤ), (1 : ℤ))), (((0 : ℤ), (2 : ℤ)), ((0 : ℤ), (1 : ℤ))), (((2 : ℤ), (0 : ℤ)), ((1 : ℤ), (0 : ℤ)))], [(4, 2, ((1 : ℤ), (1 : ℤ))), (4, 2, ((0 : ℤ), (2 : ℤ))), (4, 2, ((2 : ℤ), (0 : ℤ)))], 3⟩
def c3st4 : AState ℚ := ⟨[(((0 : ℤ), (0 : ℤ)), 0), (((1 : ℤ), (0 : ℤ)), 1), (((0 : ℤ), (1 : ℤ)), 1), (((1 : ℤ), (1 : ℤ)), 2), (((0 : ℤ), (2 : ℤ)), 2), (((2 : ℤ), (0 : ℤ)), 2), (((1 : ℤ), (2 : ℤ)), 3)], [(((1 : ℤ), (0 : ℤ)), ((0 : ℤ), (0 : ℤ))), (((0 : ℤ), (1 : ℤ)), ((0 : ℤ), (0 : ℤ))), (((1 : ℤ), (1 : ℤ)), ((0 : ℤ), (1 : ℤ))), (((0 : ℤ), (2 : ℤ)), ((0 : ℤ), (1 : ℤ))), (((2 : ℤ), (0 : ℤ)), ((1 : ℤ), (0 : ℤ))), (((1 : ℤ), (2 : ℤ)), ((0 : ℤ), (2 : ℤ)))], [(4, 2, ((1 : ℤ), (1 : ℤ))), (4, 2, ((2 : ℤ), (0 : ℤ))), (4, 3, ((1 : ℤ), (2 : ℤ)))], 4⟩
def c3st5 : AState ℚ := ⟨[(((0 : ℤ), (0 : ℤ)), 0), (((1 : ℤ), (0 : ℤ)), 1), (((0 : ℤ), (1 : ℤ)), 1), (((1 : ℤ), (1 : ℤ)), 2), (((0 : ℤ), (2 : ℤ)), 2), (((2 : ℤ), (0 : ℤ)), 2), (((1 : ℤ), (2 : ℤ)), 3), (((2 : ℤ), (1 : ℤ)), 3)], [(((1 : ℤ), (0 : ℤ)), ((0 : ℤ), (0 : ℤ))), (((0 : ℤ), (1 : ℤ)), ((0 : ℤ), (0 : ℤ))), (((1 : ℤ), (1 : ℤ)), ((0 : ℤ), (1 : ℤ))), (((0 : ℤ), (2 : ℤ)), ((0 : ℤ), (1 : ℤ))), (((2 : ℤ), (0 : ℤ)), ((1 : ℤ), (0 : ℤ))), (((1 : ℤ), (2 : ℤ)), ((0 : ℤ), (2 : ℤ))), (((2 : ℤ), (1 : ℤ)), ((1 : ℤ), (1 : ℤ)))], [(4, 2, ((2 : ℤ), (0 : ℤ))), (4, 3, ((1 : ℤ), (2 : ℤ))), (4, 3, ((2 : ℤ), (1 : ℤ)))], 5⟩
def c3st6 : AState ℚ := ⟨[(((0 : ℤ), (0 : ℤ)), 0), (((1 : ℤ), (0 : ℤ)), 1), (((0 : ℤ), (1 : ℤ)), 1), (((1 : ℤ), (1 : ℤ)), 2), (((0 : ℤ), (2 : ℤ)), 2), (((2 : ℤ), (0 : ℤ)), 2), (((1 : ℤ), (2 : ℤ)), 3), (((2 : ℤ), (1 : ℤ)), 3)], [(((1 : ℤ), (0 : ℤ)), ((0 : ℤ), (0 : ℤ))), (((0 : ℤ), (1 : ℤ)), ((0 : ℤ), (0 : ℤ))), (((1 : ℤ), (1 : ℤ)), ((0 : ℤ), (1 : ℤ))), (((0 : ℤ), (2 : ℤ)), ((0 : ℤ), (1 : ℤ))), (((2 : ℤ), (0 : ℤ)), ((1 : ℤ), (0 : ℤ))), (((1 : ℤ), (2 : ℤ)), ((0 : ℤ), (2 : ℤ))), (((2 : ℤ), (1 : ℤ)), ((1 : ℤ), (1 : ℤ)))], [(4, 3, ((1 : ℤ), (2 : ℤ))), (4, 3, ((2 : ℤ), (1 : ℤ)))], 6⟩
def c3st7 : AState ℚ := ⟨[(((0 : ℤ), (0 : ℤ)), 0), (((1 : ℤ), (0 : ℤ)), 1), (((0 : ℤ), (1 : ℤ)), 1), (((1 : ℤ), (1 : ℤ)), 2), (((0 : ℤ), (2 : ℤ)), 2), (((2 : ℤ), (0 : ℤ)), 2), (((1 : ℤ), (2 : ℤ)), 3), (((2 : ℤ), (1 : ℤ)), 3), (((2 : ℤ), (2 : ℤ)), 4)], [(((1 : ℤ), (0 : ℤ)), ((0 : ℤ), (0 : ℤ))), (((0 : ℤ), (1 : ℤ)), ((0 : ℤ), (0 : ℤ))), (((1 : ℤ), (1 : ℤ)), ((0 : ℤ), (1 : ℤ))), (((0 : ℤ), (2 : ℤ)), ((0 : ℤ), (1 : ℤ))), (((2 : ℤ), (0 : ℤ)), ((1 : ℤ), (0 : ℤ))), (((1 : ℤ), (2 : ℤ)), ((0 : ℤ), (2 : ℤ))), (((2 : ℤ), (1 : ℤ)), ((1 : ℤ), (1 : ℤ))), (((2 : ℤ), (2 : ℤ)), ((1 : ℤ), (2 : ℤ)))], [(4, 3, ((2 : ℤ), (1 : ℤ))), (4, 4, ((2 : ℤ), (2 : ℤ)))], 7⟩
def c3st8 : AState ℚ := ⟨[(((0 : ℤ), (0 : ℤ)), 0), (((1 : ℤ), (0 : ℤ)), 1), (((0 : ℤ), (1 : ℤ)), 1), (((1 : ℤ), (1 : ℤ)), 2), (((0 : ℤ), (2 : ℤ)), 2), (((2 : ℤ), (0 : ℤ)), 2), (((1 : ℤ), (2 : ℤ)), 3), (((2 : ℤ), (1 : ℤ)), 3), (((2 : ℤ), (2 : ℤ)), 4)], [(((1 : ℤ), (0 : ℤ)), ((0 : ℤ), (0 : ℤ))), (((0 : ℤ), (1 : ℤ)), ((0 : ℤ), (0 : ℤ))), (((1 : ℤ), (1 : ℤ)), ((0 : ℤ), (1 : ℤ))), (((0 : ℤ), (2 : ℤ)), ((0 : ℤ), (1 : ℤ))), (((2 : ℤ), (0 : ℤ)), ((1 : ℤ), (0 : ℤ))), (((1 : ℤ), (2 : ℤ)), ((0 : ℤ), (2 : ℤ))), (((2 : ℤ), (1 : ℤ)), ((1 : ℤ), (1 : ℤ))), (((2 : ℤ), (2 : ℤ)), ((1 : ℤ), (2 : ℤ)))], [(4, 4, ((2 : ℤ), (2 : ℤ)))], 8⟩
def c3st9 : AState ℚ := ⟨[(((0 : ℤ), (0 : ℤ)), 0), (((1 : ℤ), (0 : ℤ)), 1), (((0 : ℤ), (1 : ℤ)), 1), (((1 : ℤ), (1 : ℤ)), 2), (((0 : ℤ), (2 : ℤ)), 2), (((2 : ℤ), (0 : ℤ)), 2), (((1 : ℤ), (2 : ℤ)), 3), (((2 : ℤ), (1 : ℤ)), 3), (((2 : ℤ), (2 : ℤ)), 4)], [(((1 : ℤ), (0 : ℤ)), ((0 : ℤ), (0 : ℤ))), (((0 : ℤ), (1 : ℤ)), ((0 : ℤ), (0 : ℤ))), (((1 : ℤ), (1 : ℤ)), ((0 : ℤ), (1 : ℤ))), (((0 : ℤ), (2 : ℤ)), ((0 : ℤ), (1 : ℤ))), (((2 : ℤ), (0 : ℤ)), ((1 : ℤ), (0 : ℤ))), (((1 : ℤ), (2 : ℤ)), ((0 : ℤ), (2 : ℤ))), (((2 : ℤ), (1 : ℤ)), ((1 : ℤ), (1 : ℤ))), (((2 : ℤ), (2 : ℤ)), ((1 : ℤ), (2 : ℤ)))], [], 9⟩

theorem c3_step0 (fuel : ℕ) :
    aStarLoop (α := ℚ) c3grid (2, 2) manhattan (fuel + 1) c3st0 =
      aStarLoop (α := ℚ) c3grid (2, 2) manhattan fuel c3st1 := by
  simp only [aStarLoop]
  simp [c3st0, c3st1, popMin, aEntryLt, gtOptD, ltOptD, aStarStep, alookup,
    aupdate, inBoundsB, isWalkableB, cellVal, gridRows, gridCols, manhattan,
    c3grid, Prod.ext_iff, Int.toNat, -Prod.mk_zero_zero, -Prod.mk_one_one]
  all_goals norm_num [AState.mk.injEq, Prod.ext_iff, Int.toNat,
    -Prod.mk_zero_zero, -Prod.mk_one_one]
  all_goals (try simp [alookup, aupdate, Prod.ext_iff,
    -Prod.mk_zero_zero, -Prod.mk_one_one])
  all_goals (try norm_num [AState.mk.injEq, Prod.ext_iff,
    -Prod.mk_zero_zero, -Prod.mk_one_one])

theorem c3_step1 (fuel : ℕ) :
    aStarLoop (α := ℚ) c3grid (2, 2) manhattan (fuel + 1) c3st1 =
      aStarLoop (α := ℚ) c3grid (2, 2) manhattan fuel c3st2 := by
  simp only [aStarLoop]
  simp [c3st1, c3st2, popMin, aEntryLt, gtOptD, ltOptD, aStarStep, alookup,
    aupdate, inBoundsB, isWalkableB, cellVal, gridRows, gridCols, manhattan,
    c3grid, Prod.ext_iff, Int.toNat, -Prod.mk_zero_zero, -Prod.mk_one_one]
  all_goals norm_num [AState.mk.injEq, Prod.ext_iff, Int.toNat,
    -Prod.mk_zero_zero, -Prod.mk_one_one]
  all_goals (try simp [alookup, aupdate, Prod.ext_iff,
    -Prod.mk_zero_zero, -Prod.mk_one_one])
  all_goals (try norm_num [AState.mk.injEq, Prod.ext_iff,
    -Prod.mk_zero_zero, -Prod.mk_one_one])

theorem c3_step2 (fuel : ℕ) :
    aStarLoop (α := ℚ) c3grid (2, 2) manhattan (fuel + 1) c3st2 =
      aStarLoop (α := ℚ) c3grid (2, 2) manhattan fuel c3st3 := by
  simp only [aStarLoop]
  simp [c3st2, c3st3, popMin, aEntryLt, gtOptD, ltOptD, aStarStep, alookup,
    aupdate, inBoundsB, isWalkableB, cellVal, gridRows, gridCols, manhattan,
    c3grid, Prod.ext_iff, Int.toNat, -Prod.mk_zero_zero, -Prod.mk_one_one]
  all_goals norm_num [AState.mk.injEq, Prod.ext_iff, Int.toNat,
    -Prod.mk_zero_zero, -Prod.mk_one_one]
  all_goals (try simp [alookup, aupdate, Prod.ext_iff,
    -Prod.mk_zero_zero, -Prod.mk_one_one])
  all_goals (try norm_num [AState.mk.injEq, Prod.ext_iff,
    -Prod.mk_zero_zero, -Prod.mk_one_one])

theorem c3_step3 (fuel : ℕ) :
    aStarLoop (α := ℚ) c3grid (2, 2) manhattan (fuel + 1) c3st3 =
      aStarLoop (α := ℚ) c3grid (2, 2) manhattan fuel c3st4 := by
  simp only [aStarLoop]
  simp [c3st3, c3st4, popMin, aEntryLt, gtOptD, ltOptD, aStarStep, alookup,
    aupdate, inBoundsB, isWalkableB, cellVal, gridRows, gridCols, manhattan,
    c3grid, Prod.ext_iff, Int.toNat, -Prod.mk_zero_zero, -Prod.mk_one_one]
  all_goals norm_num [AState.mk.injEq, Prod.ext_iff, Int.toNat,
    -Prod.mk_zero_zero, -Prod.mk_one_one]
  all_goals (try simp [alookup, aupdate, Prod.ext_iff,
    -Prod.mk_zero_zero, -Prod.mk_one_one])
  all_goals (try norm_num [AState.mk.injEq, Prod.ext_iff,
    -Prod.mk_zero_zero, -Prod.mk_one_one])

theorem c3_step4 (fuel : ℕ) :
    aStarLoop (α := ℚ) c3grid (2, 2) manhattan (fuel + 1) c3st4 =
      aStarLoop (α := ℚ) c3grid (2, 2) manhattan fuel c3st5 := by
  simp only [aStarLoop]
  simp [c3st4, c3st5, popMin, aEntryLt, gtOptD, ltOptD, aStarStep, alookup,
    aupdate, inBoundsB, isWalkableB, cellVal, gridRows, gridCols, manhattan,
    c3grid, Prod.ext_iff, Int.toNat, -Prod.mk_zero_zero, -Prod.mk_one_one]
  all_goals norm_num [AState.mk.injEq, Prod.ext_iff, Int.toNat,
    -Prod.mk_zero_zero, -Prod.mk_one_one]
  all_goals (try simp [alookup, aupdate, Prod.ext_iff,
    -Prod.mk_zero_zero, -Prod.mk_one_one])
  all_goals (try norm_num [AState.mk.injEq, Prod.ext_iff,
    -Prod.mk_zero_zero, -Prod.mk_one_one])

theorem c3_step5 (fuel : ℕ) :
    aStarLoop (α := ℚ) c3grid (2, 2) manhattan (fuel + 1) c3st5 =
      aStarLoop (α := ℚ) c3grid (2, 2) manhattan fuel c3st6 := by
  simp only [aStarLoop]
  simp [c3st5, c3st6, popMin, aEntryLt, gtOptD, ltOptD, aStarStep, alookup,
    aupdate, inBoundsB, isWalkableB, cellVal, gridRows, gridCols, manhattan,
    c3grid, Prod.ext_iff, Int.toNat, -Prod.mk_zero_zero, -Prod.mk_one_one]
  all_goals norm_num [AState.mk.injEq, Prod.ext_iff, Int.toNat,
    -Prod.mk_zero_zero, -Prod.mk_one_one]
  all_goals (try simp [alookup, aupdate, Prod.ext_iff,
    -Prod.mk_zero_zero, -Prod.mk_one_one])
  all_goals (try norm_num [AState.mk.injEq, Prod.ext_iff,
    -Prod.mk_zero_zero, -Prod.mk_one_one])

theorem c3_step6 (fuel : ℕ) :
    aStarLoop (α := ℚ) c3grid (2, 2) manhattan (fuel + 1) c3st6 =
      aStarLoop (α := ℚ) c3grid (2, 2) manhattan fuel c3st7 := by
  simp only [aStarLoop]
  simp [c3st6, c3st7, popMin, aEntryLt, gtOptD, ltOptD, aStarStep, alookup,
    aupdate, inBoundsB, isWalkableB, cellVal, gridRows, gridCols, manhattan,
    c3grid, Prod.ext_iff, Int.toNat, -Prod.mk_zero_zero, -Prod.mk_one_one]
  all_goals norm_num [AState.mk.injEq, Prod.ext_iff, Int.toNat,
    -Prod.mk_zero_zero, -Prod.mk_one_one]
  all_goals (try simp [alookup, aupdate, Prod.ext_iff,
    -Prod.mk_zero_zero, -Prod.mk_one_one])
  all_goals (try norm_num [AState.mk.injEq, Prod.ext_iff,
    -Prod.mk_zero_zero, -Prod.mk_one_one])

theorem c3_step7 (fuel : ℕ) :
    aStarLoop (α := ℚ) c3grid (2, 2) manhattan (fuel + 1) c3st7 =
      aStarLoop (α := ℚ) c3grid (2, 2) manhattan fuel c3st8 := by
  simp only [aStarLoop]
  simp [c3st7, c3st8, popMin, aEntryLt, gtOptD, ltOptD, aStarStep, alookup,
    aupdate, inBoundsB, isWalkableB, cellVal, gridRows, gridCols, manhattan,
    c3grid, Prod.ext_iff, Int.toNat, -Prod.mk_zero_zero, -Prod.mk_one_one]
  all_goals norm_num [AState.mk.injEq, Prod.ext_iff, Int.toNat,
    -Prod.mk_zero_zero, -Prod.mk_one_one]
  all_goals (try simp [alookup, aupdate, Prod.ext_iff,
    -Prod.mk_zero_zero, -Prod.mk_one_one])
  all_goals (try norm_num [AState.mk.injEq, Prod.ext_iff,
    -Prod.mk_zero_zero, -Prod.mk_one_one])

theorem c3_step8 (fuel : ℕ) :
    aStarLoop (α := ℚ) c3grid (2, 2) manhattan (fuel + 1) c3st8 = c3st9 := by
  simp only [aStarLoop]
  simp [c3st8, c3st9, popMin, aEntryLt, gtOptD, ltOptD, aStarStep, alookup,
    aupdate, inBoundsB, isWalkableB, cellVal, gridRows, gridCols, manhattan,
    c3grid, Prod.ext_iff, Int.toNat, -Prod.mk_zero_zero, -Prod.mk_one_one]
  all_goals norm_num [AState.mk.injEq, Prod.ext_iff, Int.toNat,
    -Prod.mk_zero_zero, -Prod.mk_one_one]
  all_goals (try simp [alookup, aupdate, Prod.ext_iff,
    -Prod.mk_zero_zero, -Prod.mk_one_one])
  all_goals (try norm_num [AState.mk.injEq, Prod.ext_iff,
    -Prod.mk_zero_zero, -Prod.mk_one_one])

theorem c3_loop_result :
    aStarLoop (α := ℚ) c3grid (2, 2) manhattan 50 c3st0 = c3st9 :=
  (c3_step0 49).trans ((c3_step1 48).trans ((c3_step2 47).trans ((c3_step3 46).trans
    ((c3_step4 45).trans ((c3_step5 44).trans ((c3_step6 43).trans ((c3_step7 42).trans
      (c3_step8 41))))))))

/-- C3: the claim says that on the 3 by 3 all-ones grid with start (0,0) and
goal (2,2), a_star returns a path of optimal length 4 under both heuristics.
In fact a_star returns no result at all on this input: after 9 pops the
search does record the optimal distance 4 for the goal, but the path
reconstruction loop, whose condition `while cur` is always true on a
coordinate tuple, can only terminate by a KeyError when the start cell is
looked up in prev, so the call raises instead of returning.  The third
conjunct states this for the actual final parent map of the run at every
fuel and start cell. -/
theorem c3_astar_counterexample :
    aStar ℚ c3grid (0, 0) (2, 2) manhattan 50 = none ∧
      alookup (aStarLoop (α := ℚ) c3grid (2, 2) manhattan 50 c3st0).dist
        (2, 2) = some 4 ∧
      (∀ (fuel : ℕ) (cur : Coord),
        reconstructPath c3st9.prevd fuel cur = none) := by
  have hinit :
      (⟨[(((0 : ℤ), (0 : ℤ)), 0)], [],
        [((0 : ℚ) + manhattan (0, 0) (2, 2), 0, ((0 : ℤ), (0 : ℤ)))], 0⟩ :
          AState ℚ) = c3st0 := by
    norm_num [c3st0, manhattan, AState.mk.injEq, Prod.ext_iff]
  have hdist :
      alookup (aStarLoop (α := ℚ) c3grid (2, 2) manhattan 50 c3st0).dist
        (2, 2) = some 4 := by
    rw [c3_loop_result]
    norm_num [c3st9, alookup, Prod.ext_iff]
  refine ⟨?_, hdist, fun fuel cur => reconstructPath_none _ fuel cur⟩
  unfold aStar
  rw [if_pos (by decide), if_pos (by decide)]
  dsimp only
  rw [hinit, c3_loop_result]
  rw [show alookup c3st9.dist ((2 : ℤ), (2 : ℤ)) = some 4 from by
    norm_num [c3st9, alookup, Prod.ext_iff]]
  rw [reconstructPath_none]

/-! ## lab4/matching.py: check_bipartite, hopcroft_karp, solve_matching

Vertices are naturals; the pair arrays pair_v / pair_u hold Python ints
with the sentinel -1 and are modelled as lists of integers; the dist array
holds 0, d + 1 and float("inf") and is modelled over WithTop of the
naturals, where top + 1 = top reproduces the float identity inf + 1 = inf.
Python raises IndexError on an out-of-range list subscript; the embedding
reads with getD defaults instead, and the claim theorem restricts to
in-range edge lists, under which every subscript of the run is in range
and the two semantics agree.  A Python set of small naturals is modelled
as the increasingly sorted list of its members where it is iterated, and
set membership as list membership. -/

/-- Adjacency lists of check_bipartite: each edge (u, v) appends v to
adj[u] and u to adj[v], in input order. -/
def cbAdj (n : ℕ) (edges : List (ℕ × ℕ)) : List (List ℕ) :=
  edges.foldl
    (fun adj e =>
      let a1 := adj.set e.1 (adj.getD e.1 [] ++ [e.2])
      a1.set e.2 (a1.getD e.2 [] ++ [e.1]))
    (List.replicate n [])

/-- Neighbor scan of one dequeued vertex v in the coloring BFS: an
uncolored neighbor gets color 1 - colors[v] and is enqueued; a neighbor
of v's own color triggers the early return (False, colors), modelled as
the error branch. -/
def cbScan (v : ℕ) : List ℕ → List ℤ → List ℕ →
    Except (List ℤ) (List ℤ × List ℕ)
  | [], colors, q => .ok (colors, q)
  | u :: rest, colors, q =>
    if colors.getD u (-1) = -1 then
      cbScan v rest (colors.set u (1 - colors.getD v (-1))) (q ++ [u])
    else if colors.getD u (-1) = colors.getD v (-1) then .error colors
    else cbScan v rest colors q

/-- Queue-draining loop of the coloring BFS; fuel bounds the number of
dequeues and none means the bound was hit. -/
def cbBFS (adj : List (List ℕ)) : ℕ → List ℤ → List ℕ →
    Option (Except (List ℤ) (List ℤ))
  | 0, _, _ => none
  | fuel + 1, colors, q =>
    match q with
    | [] => some (.ok colors)
    | v :: q2 =>
      match cbScan v (adj.getD v []) colors q2 with
      | .error c => some (.error c)
      | .ok (c, q3) => cbBFS adj fuel c q3

/-- Outer loop of check_bipartite over the start vertices: an already
colored start is skipped, an uncolored one is colored 0 and explored. -/
def cbStarts (adj : List (List ℕ)) (fuel : ℕ) :
    List ℕ → List ℤ → Option (Bool × List ℤ)
  | [], colors => some (true, colors)
  | s :: rest, colors =>
    if colors.getD s (-1) ≠ -1 then cbStarts adj fuel rest colors
    else
      match cbBFS adj fuel (colors.set s 0) [s] with
      | none => none
      | some (.error c) => some (false, c)
      | some (.ok c) => cbStarts adj fuel rest c

/-- check_bipartite: colors all vertices greedily by BFS over every
component and reports whether two adjacent vertices ever received the
same color. -/
def check_bipartite (n : ℕ) (edges : List (ℕ × ℕ)) (fuel : ℕ) :
    Option (Bool × List ℤ) :=
  cbStarts (cbAdj n edges) fuel (List.range n) (List.replicate n (-1))

/-- forward_adj of hopcroft_karp: each edge is directed from its endpoint
in the left partition to the other endpoint; an edge with neither
endpoint in the left partition is dropped. -/
def buildFAdj (n : ℕ) (left : List ℕ) (edges : List (ℕ × ℕ)) :
    List (List ℕ) :=
  edges.foldl
    (fun fa e =>
      if left.contains e.1 then fa.set e.1 (fa.getD e.1 [] ++ [e.2])
      else if left.contains e.2 then fa.set e.2 (fa.getD e.2 [] ++ [e.1])
      else fa)
    (List.replicate n [])

/-- Mutable state of hopcroft_karp: pair_v, pair_u and dist. -/
structure HKState : Type where
  pv : List ℤ
  pu : List ℤ
  dist : List (WithTop ℕ)
deriving DecidableEq

/-- First half of bfs: every free left vertex gets dist 0 and is
enqueued, every matched left vertex gets dist infinity. -/
def hkBFSInit : List ℕ → HKState → List ℕ → HKState × List ℕ
  | [], st, dq => (st, dq)
  | v :: rest, st, dq =>
    if st.pv.getD v (-1) ≠ -1 then
      hkBFSInit rest { st with dist := st.dist.set v ⊤ } dq
    else
      hkBFSInit rest { st with dist := st.dist.set v 0 } (dq ++ [v])

/-- Neighbor scan of one dequeued vertex v in the layering bfs: a free
right neighbor marks that an augmenting path exists; a matched right
neighbor whose partner is unvisited moves the partner to the next layer
and enqueues it. -/
def hkBFSScan (v : ℕ) : List ℕ → HKState → List ℕ → Bool →
    HKState × List ℕ × Bool
  | [], st, dq, found => (st, dq, found)
  | u :: rest, st, dq, found =>
    let pu := st.pu.getD u (-1)
    if pu = -1 then hkBFSScan v rest st dq true
    else if st.dist.getD pu.toNat ⊤ = ⊤ then
      hkBFSScan v rest
        { st with dist := st.dist.set pu.toNat (st.dist.getD v ⊤ + 1) }
        (dq ++ [pu.toNat]) found
    else hkBFSScan v rest st dq found

/-- Queue-draining loop of the layering bfs. -/
def hkBFSLoop (fa : List (List ℕ)) : ℕ → HKState → List ℕ → Bool →
    Option (HKState × Bool)
  | 0, _, _, _ => none
  | fuel + 1, st, dq, found =>
    match dq with
    | [] => some (st, found)
    | v :: dq2 =>
      match hkBFSScan v (fa.getD v []) st dq2 found with
      | (st2, dq3, found2) => hkBFSLoop fa fuel st2 dq3 found2

/-- bfs of hopcroft_karp: layer initialisation followed by the scan loop,
returning the state and whether an augmenting path exists. -/
def hkBFS (left : List ℕ) (fa : List (List ℕ)) (fuel : ℕ)
    (st : HKState) : Option (HKState × Bool) :=
  match hkBFSInit left st [] with
  | (st1, dq) => hkBFSLoop fa fuel st1 dq false

/-- dfs of hopcroft_karp over the remaining neighbor list of vertex v,
with the recursive call dfs(pu) abstracted into the parameter deep.  A
free right neighbor, or a matched one whose partner sits one layer
deeper and recursively augments, completes an augmenting path: the pair
(v, u) is recorded and true is returned.  An exhausted neighbor list
marks v unreachable for this phase and returns false. -/
def hkDFSGo (deep : ℕ → HKState → Option (HKState × Bool)) :
    ℕ → List ℕ → HKState → Option (HKState × Bool)
  | v, [], st => some ({ st with dist := st.dist.set v ⊤ }, false)
  | v, u :: rest, st =>
    let pu := st.pu.getD u (-1)
    if pu = -1 then
      some ({ st with pv := st.pv.set v u, pu := st.pu.set u v }, true)
    else if st.dist.getD pu.toNat ⊤ = st.dist.getD v ⊤ + 1 then
      match deep pu.toNat st with
      | none => none
      | some (st2, true) =>
        some ({ st2 with pv := st2.pv.set v u, pu := st2.pu.set u v },
          true)
      | some (st2, false) => hkDFSGo deep v rest st2
    else hkDFSGo deep v rest st

/-- dfs entry point: scan the full neighbor list of v.  The unbounded
source recursion is bounded by fuel; at fuel 0 any attempted recursion
yields none, meaning the bound was hit. -/
def hkDFS (fa : List (List ℕ)) : ℕ → ℕ → HKState →
    Option (HKState × Bool)
  | 0, v, st => hkDFSGo (fun _ _ => none) v (fa.getD v []) st
  | fuel + 1, v, st => hkDFSGo (hkDFS fa fuel) v (fa.getD v []) st

/-- Phase body: run dfs from every free left vertex, discarding the
boolean results. -/
def hkTryAll (fa : List (List ℕ)) (fuel : ℕ) :
    List ℕ → HKState → Option HKState
  | [], st => some st
  | u :: rest, st =>
    if st.pv.getD u (-1) = -1 then
      match hkDFS fa fuel u st with
      | none => none
      | some (st2, _) => hkTryAll fa fuel rest st2
    else hkTryAll fa fuel rest st

/-- Phase loop: while bfs() reports an augmenting path, run the dfs
sweep; fuel bounds the number of phases. -/
def hkPhases (left : List ℕ) (fa : List (List ℕ)) :
    ℕ → HKState → Option HKState
  | 0, _ => none
  | fuel + 1, st =>
    match hkBFS left fa (fuel + 1) st with
    | none => none
    | some (st1, false) => some st1
    | some (st1, true) =>
      match hkTryAll fa (fuel + 1) left st1 with
      | none => none
      | some st2 => hkPhases left fa fuel st2

/-- hopcroft_karp: build forward_adj, start from the empty matching, run
the phase loop and read the matching off pair_v over the left
partition. -/
def hopcroft_karp (n : ℕ) (edges : List (ℕ × ℕ)) (left : List ℕ)
    (fuel : ℕ) : Option (List (ℕ × ℤ)) :=
  let fa := buildFAdj n left edges
  let st0 : HKState :=
    ⟨List.replicate n (-1), List.replicate n (-1), List.replicate n ⊤⟩
  match hkPhases left fa fuel st0 with
  | none => none
  | some st =>
    some (left.filterMap (fun u =>
      if st.pv.getD u (-1) ≠ -1 then some (u, st.pv.getD u (-1))
      else none))

/-- solve_matching: color the graph, fail fast when it is not bipartite,
otherwise take the color-0 vertices as the left partition and run
hopcroft_karp. -/
def solve_matching (n : ℕ) (edges : List (ℕ × ℕ)) (fuel : ℕ) :
    Option (Bool × List (ℕ × ℤ)) :=
  match check_bipartite n edges fuel with
  | none => none
  | some (false, _) => some (false, [])
  | some (true, colors) =>
    let left := (List.range colors.length).filter
      (fun i => colors.getD i (-1) = 0)
    match hopcroft_karp n edges left fuel with
    | none => none
    | some m => some (true, m)

/-! ## Properness of the coloring produced by check_bipartite -/

/-- Length of the check_bipartite adjacency structure. -/
theorem cbAdj_length (n : ℕ) (edges : List (ℕ × ℕ)) :
    (cbAdj n edges).length = n := by
  unfold cbAdj
  refine foldl_preserves (fun l : List (List ℕ) => l.length = n) _ edges ?_ _ (by simp)
  intro s e _ hs
  simp [hs]

/-- Membership in a row of a list-of-lists after a set: either the set
row was hit, or the row is unchanged. -/
theorem mem_getD_set {α : Type} (l : List (List α)) (i : ℕ) (ys : List α)
    (w : ℕ) (x : α) (hx : x ∈ (l.set i ys).getD w []) :
    (w = i ∧ i < l.length ∧ x ∈ ys) ∨ x ∈ l.getD w [] := by
  by_cases hw : w = i
  · subst hw
    by_cases hl : w < l.length
    · rw [getD_set_lt _ _ _ _ (by simpa using hl)] at hx
      exact Or.inl ⟨rfl, hl, hx⟩
    · rw [List.set_eq_of_length_le (by omega)] at hx
      exact Or.inr hx
  · rw [getD_set_ne _ _ _ _ _ (fun h => hw h.symm)] at hx
    exact Or.inr hx

/-- Membership in a row is preserved by a set that only appends. -/
theorem mem_getD_set_append {α : Type} (l : List (List α)) (i : ℕ)
    (zs : List α) (w : ℕ) (x : α) (hx : x ∈ l.getD w []) :
    x ∈ (l.set i (l.getD i [] ++ zs)).getD w [] := by
  by_cases hw : w = i
  · subst hw
    by_cases hl : w < l.length
    · rw [getD_set_lt _ _ _ _ (by simpa using hl)]
      exact List.mem_append.mpr (Or.inl hx)
    · rw [List.set_eq_of_length_le (by omega)]
      exact hx
  · rw [getD_set_ne _ _ _ _ _ (fun h => hw h.symm)]
    exact hx

/-- Every neighbor stored by the adjacency builder is an edge endpoint,
hence in range when every edge is. -/
theorem cbAdj_bounded (n : ℕ) (edges : List (ℕ × ℕ))
    (hrange : ∀ e ∈ edges, e.1 < n ∧ e.2 < n) :
    ∀ w x, x ∈ (cbAdj n edges).getD w [] → x < n := by
  unfold cbAdj
  refine foldl_preserves
    (fun l : List (List ℕ) => ∀ w x, x ∈ l.getD w [] → x < n) _ edges
    ?_ _ ?_
  · intro s e he hs w x hx
    rcases hrange e he with ⟨h1, h2⟩
    rcases mem_getD_set _ _ _ _ _ hx with ⟨_, _, hx⟩ | hx
    · rcases List.mem_append.mp hx with hx | hx
      · rcases mem_getD_set _ _ _ _ _ hx with ⟨_, _, hx⟩ | hx
        · rcases List.mem_append.mp hx with hx | hx
          · exact hs _ _ hx
          · simp at hx; omega
        · exact hs _ _ hx
      · simp at hx; omega
    · rcases mem_getD_set _ _ _ _ _ hx with ⟨_, _, hx⟩ | hx
      · rcases List.mem_append.mp hx with hx | hx
        · exact hs _ _ hx
        · simp at hx; omega
      · exact hs _ _ hx
  · intro w x hx
    rw [getD_replicate] at hx
    split at hx <;> simp at hx

/-- One building step of the check_bipartite adjacency fold. -/
def cbStep (adj : List (List ℕ)) (e : ℕ × ℕ) : List (List ℕ) :=
  let a1 := adj.set e.1 (adj.getD e.1 [] ++ [e.2])
  a1.set e.2 (a1.getD e.2 [] ++ [e.1])

/-- cbAdj is the fold of cbStep. -/
theorem cbAdj_eq_foldl (n : ℕ) (edges : List (ℕ × ℕ)) :
    cbAdj n edges = edges.foldl cbStep (List.replicate n []) := rfl

/-- Row membership persists through the adjacency fold. -/
theorem cbAdj_foldl_mono :
    ∀ (l : List (ℕ × ℕ)) (acc : List (List ℕ)) (w : ℕ) (x : ℕ),
      x ∈ acc.getD w [] → x ∈ (l.foldl cbStep acc).getD w []
  | [], _, _, _, hx => hx
  | e :: tl, acc, w, x, hx => by
    refine cbAdj_foldl_mono tl _ w x ?_
    unfold cbStep
    exact mem_getD_set_append _ _ _ _ _ (mem_getD_set_append _ _ _ _ _ hx)

/-- Each in-range edge contributes both directed neighbor entries. -/
theorem cbAdj_mem (n : ℕ) (edges : List (ℕ × ℕ)) :
    ∀ e ∈ edges, e.1 < n → e.2 < n →
      e.2 ∈ (cbAdj n edges).getD e.1 [] ∧
        e.1 ∈ (cbAdj n edges).getD e.2 [] := by
  rw [cbAdj_eq_foldl]
  suffices h : ∀ (l : List (ℕ × ℕ)) (acc : List (List ℕ)),
      acc.length = n →
      ∀ e ∈ l, e.1 < n → e.2 < n →
        e.2 ∈ (l.foldl cbStep acc).getD e.1 [] ∧
          e.1 ∈ (l.foldl cbStep acc).getD e.2 [] by
    exact h edges _ (by simp)
  intro l
  induction l with
  | nil => intro acc _ e he; simp at he
  | cons a tl ih =>
    intro acc hlen e he h1 h2
    simp only [List.foldl_cons]
    rcases List.mem_cons.mp he with he | he
    · subst he
      constructor
      · refine cbAdj_foldl_mono tl _ _ _ ?_
        unfold cbStep
        apply mem_getD_set_append
        rw [getD_set_lt _ _ _ _ (by simpa [hlen] using h1)]
        exact List.mem_append.mpr (Or.inr (by simp))
      · refine cbAdj_foldl_mono tl _ _ _ ?_
        unfold cbStep
        rw [getD_set_lt _ _ _ _ (by simp [hlen, h2])]
        exact List.mem_append.mpr (Or.inr (by simp))
    · refine ih _ ?_ e he h1 h2
      unfold cbStep
      simp [hlen]

/-- Color-array extension: same length, and already colored entries are
frozen. -/
def ColExt (c c2 : List ℤ) : Prop :=
  c2.length = c.length ∧
    ∀ i, c.getD i (-1) ≠ -1 → c2.getD i (-1) = c.getD i (-1)

/-- ColExt is reflexive. -/
theorem colExt_refl (c : List ℤ) : ColExt c c := ⟨rfl, fun _ _ => rfl⟩

/-- ColExt is transitive. -/
theorem colExt_trans {c1 c2 c3 : List ℤ} (h12 : ColExt c1 c2) (h23 : ColExt c2 c3) :
    ColExt c1 c3 := by
  refine ⟨h23.1.trans h12.1, fun i hi => ?_⟩
  rw [h23.2 i (by rw [h12.2 i hi]; exact hi), h12.2 i hi]

/-- Every color entry is -1, 0 or 1. -/
def ColOK (c : List ℤ) : Prop :=
  ∀ i, c.getD i (-1) = -1 ∨ c.getD i (-1) = 0 ∨ c.getD i (-1) = 1

/-- A vertex is well colored: it holds a color and every neighbor holds a
different color. -/
def GoodV (adj : List (List ℕ)) (c : List ℤ) (v : ℕ) : Prop :=
  c.getD v (-1) ≠ -1 ∧
    ∀ u ∈ adj.getD v [], c.getD u (-1) ≠ -1 ∧ c.getD u (-1) ≠ c.getD v (-1)

/-- Well-coloredness is preserved by extension. -/
theorem goodV_mono {adj : List (List ℕ)} {c c2 : List ℤ} {v : ℕ}
    (hext : ColExt c c2) (hg : GoodV adj c v) : GoodV adj c2 v := by
  refine ⟨by rw [hext.2 v hg.1]; exact hg.1, fun u hu => ?_⟩
  rcases hg.2 u hu with ⟨h1, h2⟩
  rw [hext.2 u h1, hext.2 v hg.1]
  exact ⟨h1, h2⟩

/-- Specification of the coloring neighbor scan when it does not detect a
conflict: colors extend, values stay in range, the scanned vertex keeps
its color, every scanned neighbor ends up colored differently from v, the
queue only grows, and every newly colored vertex is enqueued. -/
theorem cbScan_ok (v : ℕ) :
    ∀ (us : List ℕ) (c : List ℤ) (q : List ℕ) (c2 : List ℤ)
      (q2 : List ℕ),
      cbScan v us c q = .ok (c2, q2) →
      c.getD v (-1) ≠ -1 → ColOK c → (∀ u ∈ us, u < c.length) →
      ColExt c c2 ∧ ColOK c2 ∧
        (∀ u ∈ us, c2.getD u (-1) ≠ -1 ∧
          c2.getD u (-1) ≠ c2.getD v (-1)) ∧
        (∀ w ∈ q, w ∈ q2) ∧
        (∀ w, c.getD w (-1) = -1 → c2.getD w (-1) ≠ -1 → w ∈ q2) ∧
        (∀ w ∈ q2, w ∈ q ∨ c2.getD w (-1) ≠ -1)
  | [], c, q, c2, q2, hrun, _, hok, _ => by
    simp only [cbScan] at hrun
    cases hrun
    exact ⟨colExt_refl c, hok, by simp, fun w hw => hw,
      fun w h1 h2 => absurd h1 h2, fun w hw => Or.inl hw⟩
  | u :: rest, c, q, c2, q2, hrun, hv, hok, hus => by
    simp only [cbScan] at hrun
    by_cases hu : c.getD u (-1) = -1
    · rw [if_pos hu] at hrun
      have hun : u < c.length := hus u (by simp)
      have huv : u ≠ v := fun h => hv (h ▸ hu)
      have hcv : c.getD v (-1) = 0 ∨ c.getD v (-1) = 1 := by
        rcases hok v with h | h | h
        · exact absurd h hv
        · exact Or.inl h
        · exact Or.inr h
      have hext1 : ColExt c (c.set u (1 - c.getD v (-1))) := by
        refine ⟨by simp, fun i hi => ?_⟩
        rcases eq_or_ne i u with rfl | hne
        · exact absurd hu hi
        · exact getD_set_ne _ _ _ _ _ (fun h => hne h.symm)
      have hok1 : ColOK (c.set u (1 - c.getD v (-1))) := by
        intro i
        rcases eq_or_ne i u with rfl | hne
        · rw [getD_set_lt _ _ _ _ hun]
          rcases hcv with h | h <;> rw [h] <;> norm_num
        · rw [getD_set_ne _ _ _ _ _ (fun h => hne h.symm)]
          exact hok i
      have h2 := cbScan_ok v rest _ _ _ _ hrun
        (by rw [hext1.2 v hv]; exact hv) hok1
        (by intro x hx; rw [List.length_set]; exact hus x (by simp [hx]))
      rcases h2 with ⟨hext2, hok2, hgood, hqmono, hnew, hqchar⟩
      refine ⟨colExt_trans hext1 hext2, hok2, ?_, ?_, ?_, ?_⟩
      · intro x hx
        rcases List.mem_cons.mp hx with rfl | hx
        · have hx1 : (c.set x (1 - c.getD v (-1))).getD x (-1) =
              1 - c.getD v (-1) := getD_set_lt _ _ _ _ hun
          have hx2 : c2.getD x (-1) = 1 - c.getD v (-1) := by
            rw [hext2.2 x (by rw [hx1]; rcases hcv with h | h <;>
              rw [h] <;> norm_num), hx1]
          have hv2 : c2.getD v (-1) = c.getD v (-1) := by
            rw [hext2.2 v (by rw [hext1.2 v hv]; exact hv), hext1.2 v hv]
          rw [hx2, hv2]
          rcases hcv with h | h <;> rw [h] <;> norm_num
        · exact hgood x hx
      · intro w hw
        exact hqmono w (by simp [hw])
      · intro w h1 h2
        rcases eq_or_ne w u with rfl | hne
        · have : (c.set w (1 - c.getD v (-1))).getD w (-1) =
              1 - c.getD v (-1) := getD_set_lt _ _ _ _ hun
          have hw2 : (c.set w (1 - c.getD v (-1))).getD w (-1) ≠ -1 := by
            rw [this]; rcases hcv with h | h <;> rw [h] <;> norm_num
          exact hqmono w (by simp)
        · have hw1 : (c.set u (1 - c.getD v (-1))).getD w (-1) = -1 := by
            rw [getD_set_ne _ _ _ _ _ (fun h => hne h.symm)]; exact h1
          exact hnew w hw1 h2
      · intro w hw
        rcases hqchar w hw with hw | hw
        · rcases List.mem_append.mp hw with hw | hw
          · exact Or.inl hw
          · simp at hw
            subst hw
            refine Or.inr ?_
            have hs1 : (c.set w (1 - c.getD v (-1))).getD w (-1) =
                1 - c.getD v (-1) := getD_set_lt _ _ _ _ hun
            have hs2 : (c.set w (1 - c.getD v (-1))).getD w (-1) ≠ -1 := by
              rw [hs1]; rcases hcv with h | h <;> rw [h] <;> norm_num
            rw [hext2.2 w hs2, hs1]
            rcases hcv with h | h <;> rw [h] <;> norm_num
        · exact Or.inr hw
    · rw [if_neg hu] at hrun
      by_cases heq : c.getD u (-1) = c.getD v (-1)
      · rw [if_pos heq] at hrun
        cases hrun
      · rw [if_neg heq] at hrun
        have h2 := cbScan_ok v rest _ _ _ _ hrun hv hok
          (fun x hx => hus x (by simp [hx]))
        rcases h2 with ⟨hext2, hok2, hgood, hqmono, hnew, hqchar⟩
        refine ⟨hext2, hok2, ?_, hqmono, hnew, hqchar⟩
        intro x hx
        rcases List.mem_cons.mp hx with rfl | hx
        · have hxv : c2.getD x (-1) = c.getD x (-1) := hext2.2 x hu
          have hvv : c2.getD v (-1) = c.getD v (-1) := hext2.2 v hv
          rw [hxv, hvv]
          exact ⟨hu, heq⟩
        · exact hgood x hx

/-- Specification of the coloring BFS loop on a clean exit: colors
extend, and afterwards every colored vertex is well colored, given that
on entry every colored vertex is well colored or still queued. -/
theorem cbBFS_ok (adj : List (List ℕ)) (n : ℕ)
    (hadjB : ∀ w x, x ∈ adj.getD w [] → x < n) :
    ∀ (fuel : ℕ) (c : List ℤ) (q : List ℕ) (c2 : List ℤ),
      cbBFS adj fuel c q = some (.ok c2) →
      c.length = n → ColOK c →
      (∀ w ∈ q, c.getD w (-1) ≠ -1) →
      (∀ w, c.getD w (-1) ≠ -1 → GoodV adj c w ∨ w ∈ q) →
      ColExt c c2 ∧ ColOK c2 ∧
        ∀ w, c2.getD w (-1) ≠ -1 → GoodV adj c2 w
  | 0, c, q, c2, hrun, _, _, _, _ => by simp [cbBFS] at hrun
  | fuel + 1, c, [], c2, hrun, hlen, hok, hq, hhq => by
    simp only [cbBFS] at hrun
    cases hrun
    refine ⟨colExt_refl c, hok, fun w hw => ?_⟩
    rcases hhq w hw with h | h
    · exact h
    · simp at h
  | fuel + 1, c, v :: q2, c2, hrun, hlen, hok, hq, hhq => by
    simp only [cbBFS] at hrun
    cases hscan : cbScan v (adj.getD v []) c q2 with
    | error cerr => rw [hscan] at hrun; cases hrun
    | ok p =>
      rcases p with ⟨c1, q3⟩
      rw [hscan] at hrun
      have hv : c.getD v (-1) ≠ -1 := hq v (by simp)
      have hsc := cbScan_ok v _ _ _ _ _ hscan hv hok
        (fun x hx => by rw [hlen]; exact hadjB v x hx)
      rcases hsc with ⟨hext1, hok1, hgoodus, hqmono, hnew, hqchar⟩
      have hrec := cbBFS_ok adj n hadjB fuel c1 q3 c2 hrun
        (hext1.1.trans hlen) hok1 ?_ ?_
      · exact ⟨colExt_trans hext1 hrec.1, hrec.2.1, hrec.2.2⟩
      · intro w hw
        rcases hqchar w hw with hw | hw
        · rw [hext1.2 w (hq w (by simp [hw]))]
          exact hq w (by simp [hw])
        · exact hw
      · intro w hw
        by_cases hwc : c.getD w (-1) = -1
        · exact Or.inr (hnew w hwc hw)
        · rcases hhq w hwc with h | h
          · exact Or.inl (goodV_mono hext1 h)
          · rcases List.mem_cons.mp h with rfl | h
            · refine Or.inl ⟨by rw [hext1.2 w hwc]; exact hwc, ?_⟩
              exact hgoodus
            · exact Or.inr (hqmono w h)

/-- Specification of the outer coloring loop when it reports a bipartite
graph: colors extend, every colored vertex is well colored, and every
processed start vertex is colored. -/
theorem cbStarts_ok (adj : List (List ℕ)) (n : ℕ) (fuel : ℕ)
    (hadjB : ∀ w x, x ∈ adj.getD w [] → x < n) :
    ∀ (starts : List ℕ) (c : List ℤ) (c2 : List ℤ),
      cbStarts adj fuel starts c = some (true, c2) →
      c.length = n → ColOK c →
      (∀ w, c.getD w (-1) ≠ -1 → GoodV adj c w) →
      (∀ s ∈ starts, s < n) →
      ColExt c c2 ∧ ColOK c2 ∧
        (∀ w, c2.getD w (-1) ≠ -1 → GoodV adj c2 w) ∧
        (∀ s ∈ starts, c2.getD s (-1) ≠ -1)
  | [], c, c2, hrun, _, hok, hgood, _ => by
    simp only [cbStarts] at hrun
    cases hrun
    exact ⟨colExt_refl c, hok, hgood, by simp⟩
  | s :: rest, c, c2, hrun, hlen, hok, hgood, hb => by
    simp only [cbStarts] at hrun
    by_cases hs : c.getD s (-1) ≠ -1
    · rw [if_pos hs] at hrun
      have hrec := cbStarts_ok adj n fuel hadjB rest c c2 hrun hlen hok
        hgood (fun x hx => hb x (by simp [hx]))
      refine ⟨hrec.1, hrec.2.1, hrec.2.2.1, fun x hx => ?_⟩
      rcases List.mem_cons.mp hx with rfl | hx
      · rw [hrec.1.2 x hs]; exact hs
      · exact hrec.2.2.2 x hx
    · rw [if_neg hs] at hrun
      push_neg at hs
      have hsn : s < c.length := by rw [hlen]; exact hb s (by simp)
      have hext1 : ColExt c (c.set s 0) := by
        refine ⟨by simp, fun i hi => ?_⟩
        rcases eq_or_ne i s with rfl | hne
        · exact absurd hs hi
        · exact getD_set_ne _ _ _ _ _ (fun h => hne h.symm)
      have hok1 : ColOK (c.set s 0) := by
        intro i
        rcases eq_or_ne i s with rfl | hne
        · rw [getD_set_lt _ _ _ _ hsn]; norm_num
        · rw [getD_set_ne _ _ _ _ _ (fun h => hne h.symm)]; exact hok i
      have hs0 : (c.set s 0).getD s (-1) = 0 := getD_set_lt _ _ _ _ hsn
      cases hbfs : cbBFS adj fuel (c.set s 0) [s] with
      | none => rw [hbfs] at hrun; cases hrun
      | some r =>
        cases r with
        | error cerr => rw [hbfs] at hrun; cases hrun
        | ok cb =>
          rw [hbfs] at hrun
          have hbs := cbBFS_ok adj n hadjB fuel _ _ _ hbfs
            (by simpa using hlen) hok1 ?_ ?_
          · rcases hbs with ⟨hext2, hok2, hgood2⟩
            have hrec := cbStarts_ok adj n fuel hadjB rest cb c2 hrun
              (hext2.1.trans (hext1.1.trans hlen)) hok2 hgood2
              (fun x hx => hb x (by simp [hx]))
            have hsb : cb.getD s (-1) ≠ -1 := by
              rw [hext2.2 s (by rw [hs0]; norm_num), hs0]; norm_num
            refine ⟨colExt_trans hext1 (colExt_trans hext2 hrec.1),
              hrec.2.1, hrec.2.2.1, fun x hx => ?_⟩
            rcases List.mem_cons.mp hx with rfl | hx
            · rw [hrec.1.2 x hsb]; exact hsb
            · exact hrec.2.2.2 x hx
          · intro w hw
            simp at hw
            subst hw
            rw [hs0]; norm_num
          · intro w hw
            by_cases hws : w = s
            · subst hws
              exact Or.inr (by simp)
            · refine Or.inl ?_
              have hwc : c.getD w (-1) ≠ -1 := by
                rwa [getD_set_ne _ _ _ _ _ (fun h => hws h.symm)] at hw
              exact goodV_mono hext1 (hgood w hwc)

/-- Correctness of a positive check_bipartite verdict: the color array
has one entry per vertex, every entry is a color, every vertex is
colored, and the two endpooints of every in-range edge carry different
colors. -/
theorem cb_proper (n : ℕ) (edges : List (ℕ × ℕ)) (fuel : ℕ)
    (colors : List ℤ)
    (hrange : ∀ e ∈ edges, e.1 < n ∧ e.2 < n)
    (hrun : check_bipartite n edges fuel = some (true, colors)) :
    colors.length = n ∧ ColOK colors ∧
      (∀ i, i < n → colors.getD i (-1) ≠ -1) ∧
      ∀ e ∈ edges, colors.getD e.1 (-1) ≠ colors.getD e.2 (-1) := by
  unfold check_bipartite at hrun
  have hadjB := cbAdj_bounded n edges hrange
  have h := cbStarts_ok (cbAdj n edges) n fuel hadjB (List.range n)
    (List.replicate n (-1)) colors hrun (by simp) ?_ ?_ ?_
  · rcases h with ⟨hext, hok, hgood, hcolored⟩
    have hlen : colors.length = n := by
      rw [hext.1]; simp
    refine ⟨hlen, hok, fun i hi => hcolored i (List.mem_range.mpr hi), ?_⟩
    intro e he
    have h1 : e.1 < n := (hrange e he).1
    have h2 : e.2 < n := (hrange e he).2
    have hc1 : colors.getD e.1 (-1) ≠ -1 :=
      hcolored e.1 (List.mem_range.mpr h1)
    have hg := hgood e.1 hc1
    have hmem := (cbAdj_mem n edges e he h1 h2).1
    exact fun hcontra => (hg.2 e.2 hmem).2 hcontra.symm
  · intro i
    rw [getD_replicate]
    split <;> simp
  · intro w hw
    rw [getD_replicate] at hw
    split at hw <;> simp at hw
  · intro s hs
    exact List.mem_range.mp hs

/-! ## Invariants of hopcroft_karp -/

/-- pair_v entry of a state. -/
def pvOf (st : HKState) (x : ℕ) : ℤ := st.pv.getD x (-1)

/-- pair_u entry of a state. -/
def puOf (st : HKState) (u : ℕ) : ℤ := st.pu.getD u (-1)

/-- dist entry of a state. -/
def dOf (st : HKState) (x : ℕ) : WithTop ℕ := st.dist.getD x ⊤

/-- The forward adjacency respects the partition: every stored arc goes
from an in-range left vertex to an in-range non-left vertex. -/
def HKFA (n : ℕ) (L : ℕ → Prop) (fa : List (List ℕ)) : Prop :=
  ∀ v u, u ∈ fa.getD v [] → v < n ∧ u < n ∧ L v ∧ ¬ L u

/-- Every recorded left-to-right pair is confirmed by the reverse array
and crosses the partition. -/
def HKJ1 (n : ℕ) (L : ℕ → Prop) (st : HKState) : Prop :=
  ∀ w, w < n → pvOf st w ≠ -1 →
    ∃ u, u < n ∧ pvOf st w = (u : ℤ) ∧ puOf st u = (w : ℤ) ∧
      L w ∧ ¬ L u

/-- Every pair_u entry in use points at an in-range left vertex from a
non-left one. -/
def HKP1 (n : ℕ) (L : ℕ → Prop) (st : HKState) : Prop :=
  ∀ u, u < n → puOf st u ≠ -1 →
    ∃ w, w < n ∧ puOf st u = (w : ℤ) ∧ L w ∧ ¬ L u

/-- The target of every pair_u entry in use is itself matched. -/
def HKJ2L (n : ℕ) (st : HKState) : Prop :=
  ∀ u, u < n → puOf st u ≠ -1 → pvOf st ((puOf st u).toNat) ≠ -1

/-- The state invariant of hopcroft_karp. -/
def HKInv (n : ℕ) (L : ℕ → Prop) (st : HKState) : Prop :=
  st.pv.length = n ∧ st.pu.length = n ∧ st.dist.length = n ∧
    HKJ1 n L st ∧ HKP1 n L st ∧ HKJ2L n st

/-- Frame condition on dist: an entry a dfs call changes belongs to the
call vertex or to a finally matched vertex, and never to a vertex of the
ancestor stack. -/
def HKDC (st st2 : HKState) (v : ℕ) (A : List ℕ) : Prop :=
  ∀ x, dOf st2 x ≠ dOf st x → (x = v ∨ pvOf st2 x ≠ -1) ∧ x ∉ A

/-- Matched left vertices stay matched. -/
def HKPVmono (st st2 : HKState) : Prop :=
  ∀ x, pvOf st x ≠ -1 → pvOf st2 x ≠ -1

/-- Frame condition on pair_u: an entry a dfs call changes was either
free, or pointed at a vertex that is neither the call vertex nor on the
ancestor stack. -/
def HKPUC (st st2 : HKState) (v : ℕ) (A : List ℕ) : Prop :=
  ∀ u, puOf st2 u ≠ puOf st u →
    puOf st u = -1 ∨
      ((puOf st u).toNat ∉ A ∧ (puOf st u).toNat ≠ v)

/-- A successful dfs call never matches its vertex to a right vertex
whose pair_u entry pointed at the call vertex or at an ancestor. -/
def HKNS (st st2 : HKState) (v : ℕ) (A : List ℕ) : Prop :=
  ∀ u, puOf st u ≠ -1 →
    ((puOf st u).toNat ∈ A ∨ (puOf st u).toNat = v) →
      pvOf st2 v ≠ (u : ℤ)

/-- Ancestor stack discipline: every stacked vertex has a finite layer
strictly below the current one. -/
def HKChain (st : HKState) (v : ℕ) (A : List ℕ) : Prop :=
  ∀ a ∈ A, (∃ da : ℕ, dOf st a = (da : WithTop ℕ)) ∧
    dOf st a < dOf st v

/-- Full specification of a dfs entry function. -/
def DFSSpec (n : ℕ) (L : ℕ → Prop)
    (dfs : ℕ → HKState → Option (HKState × Bool)) : Prop :=
  ∀ v st A, HKInv n L st → v < n →
    (∃ dv : ℕ, dOf st v = (dv : WithTop ℕ)) → HKChain st v A →
    ∀ st2 b, dfs v st = some (st2, b) →
      HKInv n L st2 ∧ HKPVmono st st2 ∧ HKDC st st2 v A ∧
        (b = false → st2.pv = st.pv ∧ st2.pu = st.pu) ∧
        (b = true →
          pvOf st2 v ≠ -1 ∧ HKPUC st st2 v A ∧ HKNS st st2 v A)

/-- Membership in the left-partition list extracted from a color array. -/
theorem left_contains (c : List ℤ) (n : ℕ) (x : ℕ) :
    ((List.range n).filter (fun i => c.getD i (-1) = 0)).contains x =
        true ↔
      x < n ∧ c.getD x (-1) = 0 := by
  simp [List.mem_filter]

/-- The forward adjacency built by hopcroft_karp from a proper coloring
respects the partition. -/
theorem buildFAdj_spec (n : ℕ) (edges : List (ℕ × ℕ)) (c : List ℤ)
    (hrange : ∀ e ∈ edges, e.1 < n ∧ e.2 < n)
    (hproper : ∀ e ∈ edges, c.getD e.1 (-1) ≠ c.getD e.2 (-1)) :
    HKFA n (fun x => c.getD x (-1) = 0)
      (buildFAdj n ((List.range n).filter (fun i => c.getD i (-1) = 0))
        edges) := by
  unfold buildFAdj
  refine foldl_preserves
    (fun fa : List (List ℕ) =>
      HKFA n (fun x => c.getD x (-1) = 0) fa) _ edges ?_ _ ?_
  · intro s e he hs v u hu
    rcases hrange e he with ⟨h1, h2⟩
    by_cases hc1 : ((List.range n).filter
        (fun i => c.getD i (-1) = 0)).contains e.1
    · rw [if_pos hc1] at hu
      rcases mem_getD_set _ _ _ _ _ hu with ⟨rfl, _, hu⟩ | hu
      · rcases List.mem_append.mp hu with hu | hu
        · exact hs _ _ hu
        · simp at hu
          subst hu
          have hL1 := (left_contains c n e.1).mp hc1
          refine ⟨h1, h2, hL1.2, fun hL2 => ?_⟩
          exact hproper e he (hL1.2.trans hL2.symm)
      · exact hs _ _ hu
    · rw [if_neg hc1] at hu
      by_cases hc2 : ((List.range n).filter
          (fun i => c.getD i (-1) = 0)).contains e.2
      · rw [if_pos hc2] at hu
        rcases mem_getD_set _ _ _ _ _ hu with ⟨rfl, _, hu⟩ | hu
        · rcases List.mem_append.mp hu with hu | hu
          · exact hs _ _ hu
          · simp at hu
            subst hu
            have hL2 := (left_contains c n e.2).mp hc2
            refine ⟨h2, h1, hL2.2, fun hL1 => ?_⟩
            exact hc1 ((left_contains c n e.1).mpr ⟨h1, hL1⟩)
        · exact hs _ _ hu
      · rw [if_neg hc2] at hu
        exact hs _ _ hu
  · intro v u hu
    rw [getD_replicate] at hu
    split at hu <;> simp at hu

/-- Successor of a finite WithTop natural as a cast. -/
theorem wt_succ (d : ℕ) :
    ((d : WithTop ℕ) + 1) = ((d + 1 : ℕ) : WithTop ℕ) :=
  (Nat.cast_add_one d).symm

/-- A finite layer is below its successor. -/
theorem wt_lt_succ (d : ℕ) : (d : WithTop ℕ) < (d : WithTop ℕ) + 1 := by
  rw [wt_succ]
  exact_mod_cast Nat.lt_succ_self d

/-- The state produced by the paired assignment pair_v[v] = u,
pair_u[u] = v. -/
def hkWrite (st : HKState) (v u : ℕ) : HKState :=
  { st with pv := st.pv.set v (u : ℤ), pu := st.pu.set u (v : ℤ) }

/-- pair_v of the written state at the written vertex. -/
theorem pvOf_write_self (st : HKState) (v u : ℕ)
    (hv : v < st.pv.length) : pvOf (hkWrite st v u) v = (u : ℤ) :=
  getD_set_lt _ _ _ _ hv

/-- pair_v of the written state elsewhere. -/
theorem pvOf_write_ne (st : HKState) (v u : ℕ) (x : ℕ) (hx : x ≠ v) :
    pvOf (hkWrite st v u) x = pvOf st x :=
  getD_set_ne _ _ _ _ _ (fun h => hx h.symm)

/-- pair_u of the written state at the written right vertex. -/
theorem puOf_write_self (st : HKState) (v u : ℕ)
    (hu : u < st.pu.length) : puOf (hkWrite st v u) u = (v : ℤ) :=
  getD_set_lt _ _ _ _ hu

/-- pair_u of the written state elsewhere. -/
theorem puOf_write_ne (st : HKState) (v u : ℕ) (x : ℕ) (hx : x ≠ u) :
    puOf (hkWrite st v u) x = puOf st x :=
  getD_set_ne _ _ _ _ _ (fun h => hx h.symm)

/-- The paired assignment preserves the state invariant as long as no
other matched left vertex already points at the written right vertex. -/
theorem hkWrite_inv (n : ℕ) (L : ℕ → Prop) (st : HKState) (v u : ℕ)
    (hInv : HKInv n L st) (hv : v < n) (hu : u < n) (hLv : L v)
    (hLu : ¬ L u)
    (hns : ∀ w, w < n → w ≠ v → pvOf st w ≠ (u : ℤ)) :
    HKInv n L (hkWrite st v u) := by
  obtain ⟨hl1, hl2, hl3, hJ1, hP1, hJ2L⟩ := hInv
  have hvl : v < st.pv.length := by rw [hl1]; exact hv
  have hul : u < st.pu.length := by rw [hl2]; exact hu
  refine ⟨by simp [hkWrite, hl1], by simp [hkWrite, hl2],
    by simp [hkWrite, hl3], ?_, ?_, ?_⟩
  · intro w hw hwm
    rcases eq_or_ne w v with rfl | hwv
    · exact ⟨u, hu, pvOf_write_self st w u hvl,
        by rw [puOf_write_self st w u hul], hLv, hLu⟩
    · rw [pvOf_write_ne st v u w hwv] at hwm
      obtain ⟨uw, huwn, huw1, huw2, hLw, hLuw⟩ := hJ1 w hw hwm
      have huwne : uw ≠ u := by
        intro h
        exact hns w hw hwv (h ▸ huw1)
      exact ⟨uw, huwn, by rw [pvOf_write_ne st v u w hwv]; exact huw1,
        by rw [puOf_write_ne st v u uw huwne]; exact huw2, hLw, hLuw⟩
  · intro x hx hxm
    rcases eq_or_ne x u with rfl | hxu
    · exact ⟨v, hv, puOf_write_self st v x hul, hLv, hLu⟩
    · rw [puOf_write_ne st v u x hxu] at hxm ⊢
      exact hP1 x hx hxm
  · intro x hx hxm
    rcases eq_or_ne x u with rfl | hxu
    · rw [puOf_write_self st v x hul] at hxm ⊢
      have : ((v : ℤ)).toNat = v := Int.toNat_natCast v
      rw [this, pvOf_write_self st v x hvl]
      simp
    · rw [puOf_write_ne st v u x hxu] at hxm ⊢
      rcases eq_or_ne ((puOf st x).toNat) v with hxv | hxv
      · rw [hxv, pvOf_write_self st v u hvl]
        simp
      · rw [pvOf_write_ne st v u _ hxv]
        exact hJ2L x hx hxm

/-- Specification of the dfs neighbor scan, by induction on the
remaining neighbor list, assuming the specification of the abstracted
recursive call. -/
theorem hkDFSGo_spec (n : ℕ) (L : ℕ → Prop) (fa : List (List ℕ))
    (hFA : HKFA n L fa) (deep : ℕ → HKState → Option (HKState × Bool))
    (hdeep : DFSSpec n L deep) :
    ∀ (us : List ℕ) (v : ℕ) (st : HKState) (A : List ℕ),
      (∀ u ∈ us, u ∈ fa.getD v []) → HKInv n L st → v < n →
      (∃ dv : ℕ, dOf st v = (dv : WithTop ℕ)) → HKChain st v A →
      ∀ st2 b, hkDFSGo deep v us st = some (st2, b) →
        HKInv n L st2 ∧ HKPVmono st st2 ∧ HKDC st st2 v A ∧
          (b = false → st2.pv = st.pv ∧ st2.pu = st.pu) ∧
          (b = true →
            pvOf st2 v ≠ -1 ∧ HKPUC st st2 v A ∧ HKNS st st2 v A)
  | [], v, st, A, _, hInv, hv, hfin, hchain, st2, b, hrun => by
    simp only [hkDFSGo] at hrun
    cases hrun
    obtain ⟨hl1, hl2, hl3, hJ1, hP1, hJ2L⟩ := hInv
    have hvA : v ∉ A := by
      intro hvA
      exact absurd (hchain v hvA).2 (lt_irrefl _)
    refine ⟨⟨hl1, hl2, by simp [hl3], hJ1, hP1, hJ2L⟩,
      fun x hx => hx, ?_, fun _ => ⟨rfl, rfl⟩, fun h => by simp at h⟩
    intro x hx
    rcases eq_or_ne x v with rfl | hxv
    · exact ⟨Or.inl rfl, hvA⟩
    · exact absurd (getD_set_ne _ _ _ _ _ (fun h => hxv h.symm)) hx
  | u :: rest, v, st, A, hus, hInv, hv, hfin, hchain, st2, b, hrun => by
    have hufa : u ∈ fa.getD v [] := hus u (by simp)
    obtain ⟨hvn, hun, hLv, hLu⟩ := hFA v u hufa
    simp only [hkDFSGo] at hrun
    by_cases hpu : st.pu.getD u (-1) = -1
    · rw [if_pos hpu] at hrun
      cases hrun
      have hwr : ({ st with pv := st.pv.set v (u : ℤ), pu := st.pu.set u (v : ℤ) } : HKState) = hkWrite st v u := rfl
      have hpuP : puOf st u = -1 := hpu
      have hvl : v < st.pv.length := by rw [hInv.1]; exact hv
      have hul : u < st.pu.length := by rw [hInv.2.1]; exact hun
      have hns : ∀ w, w < n → w ≠ v → pvOf st w ≠ (u : ℤ) := by
        intro w hw hwv hcontra
        obtain ⟨uw, _, huw1, huw2, _, _⟩ :=
          hInv.2.2.2.1 w hw (by rw [hcontra]; omega)
        have huwu : uw = u := by
          have := huw1.symm.trans hcontra
          omega
        rw [huwu] at huw2
        rw [huw2] at hpuP
        omega
      refine ⟨hkWrite_inv n L st v u hInv hvn hun hLv hLu hns,
        ?_, ?_, ?_, ?_⟩
      · intro x hx
        rcases eq_or_ne x v with rfl | hxv
        · rw [hwr, pvOf_write_self st x u hvl]; omega
        · rw [hwr, pvOf_write_ne st v u x hxv]; exact hx
      · intro x hx
        exact absurd rfl hx
      · intro h; simp at h
      · intro _
        refine ⟨?_, ?_, ?_⟩
        · rw [hwr, pvOf_write_self st v u hvl]; omega
        · intro x hx
          rcases eq_or_ne x u with rfl | hxu
          · exact Or.inl hpuP
          · rw [hwr, puOf_write_ne st v u x hxu] at hx
            exact absurd rfl hx
        · intro x hx hxA
          rw [hwr, pvOf_write_self st v u hvl]
          have hxu : x ≠ u := by
            intro h
            rw [h] at hx
            exact hx hpuP
          omega
    · rw [if_neg hpu] at hrun
      have hpuP : puOf st u ≠ -1 := hpu
      by_cases hguard : st.dist.getD (st.pu.getD u (-1)).toNat ⊤ =
          st.dist.getD v ⊤ + 1
      · rw [if_pos hguard] at hrun
        obtain ⟨c, hcn, hc1, hLc, _⟩ := hInv.2.2.2.2.1 u hun hpuP
        have hctn2 : (puOf st u).toNat = c := by
          rw [hc1]
          exact Int.toNat_natCast c
        have hctn : (st.pu.getD u (-1)).toNat = c := hctn2
        obtain ⟨dv, hdv⟩ := hfin
        have hdc : dOf st c = (dv : WithTop ℕ) + 1 := by
          have h1 : dOf st ((st.pu.getD u (-1)).toNat) =
              dOf st v + 1 := hguard
          rw [hctn, hdv] at h1
          exact h1
        have hcv : c ≠ v := by
          intro h
          rw [h, hdv] at hdc
          exact absurd hdc (ne_of_lt (wt_lt_succ dv))
        have hcA : c ∉ A := by
          intro hmem
          have hlt := (hchain c hmem).2
          rw [hdc, hdv] at hlt
          exact absurd (lt_trans hlt (wt_lt_succ dv)) (lt_irrefl _)
        have hchain2 : HKChain st c (v :: A) := by
          intro a ha
          rcases List.mem_cons.mp ha with rfl | ha
          · exact ⟨⟨dv, hdv⟩, by rw [hdv, hdc]; exact wt_lt_succ dv⟩
          · refine ⟨(hchain a ha).1, ?_⟩
            have h2 := (hchain a ha).2
            rw [hdv] at h2
            rw [hdc]
            exact lt_trans h2 (wt_lt_succ dv)
        have hfin2 : ∃ d : ℕ, dOf st c = (d : WithTop ℕ) :=
          ⟨dv + 1, by rw [hdc, wt_succ]⟩
        cases hdeeprun : deep (st.pu.getD u (-1)).toNat st with
        | none =>
          rw [hdeeprun] at hrun
          cases hrun
        | some p =>
          rcases p with ⟨st1, b1⟩
          rw [hdeeprun] at hrun
          rw [hctn] at hdeeprun
          obtain ⟨hInv1, hmono1, hDC1, hfalse1, htrue1⟩ :=
            hdeep c st (v :: A) hInv hcn hfin2 hchain2 st1 b1 hdeeprun
          cases b1 with
          | true =>
            cases hrun
            obtain ⟨hc1m, hPUC1, hNS1⟩ := htrue1 rfl
            have hv1l : v < st1.pv.length := by rw [hInv1.1]; exact hv
            have hu1l : u < st1.pu.length := by
              rw [hInv1.2.1]; exact hun
            have hwr : ({ st1 with pv := st1.pv.set v (u : ℤ), pu := st1.pu.set u (v : ℤ) } : HKState) = hkWrite st1 v u := rfl
            have hpu1u : puOf st1 u = puOf st u := by
              by_contra hne
              rcases hPUC1 u hne with h | h
              · exact hpuP h
              · rw [hctn2] at h
                exact h.2 rfl
            have hnsc : pvOf st1 c ≠ (u : ℤ) :=
              hNS1 u hpuP (Or.inr hctn2)
            have hns : ∀ w, w < n → w ≠ v → pvOf st1 w ≠ (u : ℤ) := by
              intro w hw hwv hcontra
              obtain ⟨uw, _, huw1, huw2, _, _⟩ :=
                hInv1.2.2.2.1 w hw (by rw [hcontra]; omega)
              have huwu : uw = u := by
                have := huw1.symm.trans hcontra
                omega
              rw [huwu, hpu1u] at huw2
              have hwc : w = c := by
                have := huw2.symm.trans hc1
                omega
              rw [hwc] at hcontra
              exact hnsc hcontra
            refine ⟨hkWrite_inv n L st1 v u hInv1 hvn hun hLv hLu hns,
              ?_, ?_, ?_, ?_⟩
            · intro x hx
              rcases eq_or_ne x v with rfl | hxv
              · rw [hwr, pvOf_write_self st1 x u hv1l]; omega
              · rw [hwr, pvOf_write_ne st1 v u x hxv]
                exact hmono1 x hx
            · intro x hx
              have hdd : dOf st1 x ≠ dOf st x := hx
              obtain ⟨hor, hnotin⟩ := hDC1 x hdd
              refine ⟨?_, fun hA => hnotin (by simp [hA])⟩
              have hxv : x ≠ v := fun h => hnotin (by simp [h])
              refine Or.inr ?_
              rw [hwr, pvOf_write_ne st1 v u x hxv]
              rcases hor with rfl | hm
              · exact hc1m
              · exact hm
            · intro h; simp at h
            · intro _
              refine ⟨?_, ?_, ?_⟩
              · rw [hwr, pvOf_write_self st1 v u hv1l]; omega
              · intro x hx
                rcases eq_or_ne x u with rfl | hxu
                · refine Or.inr ?_
                  rw [hctn2]
                  exact ⟨hcA, hcv⟩
                · rw [hwr, puOf_write_ne st1 v u x hxu] at hx
                  by_cases hch : puOf st1 x = puOf st x
                  · exact absurd hch hx
                  · rcases hPUC1 x hch with h | h
                    · exact Or.inl h
                    · refine Or.inr
                        ⟨fun hA => h.1 (by simp [hA]),
                          fun hveq => h.1 (by simp [hveq])⟩
              · intro x hx hxA
                rw [hwr, pvOf_write_self st1 v u hv1l]
                have hxu : x ≠ u := by
                  intro h
                  rw [h, hctn2] at hxA
                  rcases hxA with h2 | h2
                  · exact hcA h2
                  · exact hcv h2
                omega
          | false =>
            obtain ⟨hpveq, hpueq⟩ := hfalse1 rfl
            have hdv1 : dOf st1 v = dOf st v := by
              by_contra hne
              exact (hDC1 v hne).2 (by simp)
            have hchain1 : HKChain st1 v A := by
              intro a ha
              have hda : dOf st1 a = dOf st a := by
                by_contra hne
                exact (hDC1 a hne).2 (by simp [ha])
              rw [hda, hdv1]
              exact hchain a ha
            have hpveq2 : ∀ x, pvOf st1 x = pvOf st x := by
              intro x
              show st1.pv.getD x (-1) = st.pv.getD x (-1)
              rw [hpveq]
            have hpueq2 : ∀ x, puOf st1 x = puOf st x := by
              intro x
              show st1.pu.getD x (-1) = st.pu.getD x (-1)
              rw [hpueq]
            obtain ⟨hInvR, hmonoR, hDCR, hfalseR, htrueR⟩ :=
              hkDFSGo_spec n L fa hFA deep hdeep rest v st1 A
                (fun x hx => hus x (by simp [hx])) hInv1 hv
                ⟨dv, by rw [hdv1, hdv]⟩ hchain1 st2 b hrun
            refine ⟨hInvR, ?_, ?_, ?_, ?_⟩
            · intro x hx
              exact hmonoR x (by rw [hpveq2 x]; exact hx)
            · intro x hx
              by_cases hx1 : dOf st2 x = dOf st1 x
              · have hd1 : dOf st1 x ≠ dOf st x := by
                  rw [← hx1]; exact hx
                obtain ⟨hor, hnotin⟩ := hDC1 x hd1
                refine ⟨?_, fun hA => hnotin (by simp [hA])⟩
                refine Or.inr ?_
                rcases hor with rfl | hm
                · have hpvc : pvOf st x ≠ -1 := by
                    have h2 := hInv.2.2.2.2.2 u hun hpuP
                    rw [hctn2] at h2
                    exact h2
                  exact hmonoR x (by rw [hpveq2 x]; exact hpvc)
                · exact hmonoR x hm
              · exact hDCR x hx1
            · intro hb
              obtain ⟨h1, h2⟩ := hfalseR hb
              exact ⟨h1.trans hpveq, h2.trans hpueq⟩
            · intro hb
              obtain ⟨h1, h2, h3⟩ := htrueR hb
              refine ⟨h1, ?_, ?_⟩
              · intro x hx
                have hx2 : puOf st2 x ≠ puOf st1 x := by
                  rw [hpueq2 x]; exact hx
                rcases h2 x hx2 with h | h
                · exact Or.inl (by rw [← hpueq2 x]; exact h)
                · exact Or.inr (by rw [← hpueq2 x]; exact h)
              · intro x hx hxA
                refine h3 x (by rw [hpueq2 x]; exact hx) ?_
                rw [hpueq2 x]
                exact hxA
      · rw [if_neg hguard] at hrun
        exact hkDFSGo_spec n L fa hFA deep hdeep rest v st A
          (fun x hx => hus x (by simp [hx])) hInv hv hfin hchain st2 b
          hrun

/-- The dfs entry point satisfies the dfs specification at every fuel. -/
theorem hkDFS_spec (n : ℕ) (L : ℕ → Prop) (fa : List (List ℕ))
    (hFA : HKFA n L fa) : ∀ fuel, DFSSpec n L (hkDFS fa fuel)
  | 0 => by
    intro v st A hInv hv hfin hchain st2 b hrun
    simp only [hkDFS] at hrun
    exact hkDFSGo_spec n L fa hFA _
      (fun v' st' A' _ _ _ _ st2' b' h => by cases h) _ v st A
      (fun x hx => hx) hInv hv hfin hchain st2 b hrun
  | fuel + 1 => by
    intro v st A hInv hv hfin hchain st2 b hrun
    simp only [hkDFS] at hrun
    exact hkDFSGo_spec n L fa hFA _ (hkDFS_spec n L fa hFA fuel) _ v st A
      (fun x hx => hx) hInv hv hfin hchain st2 b hrun

/-- The bfs initialisation leaves the pair arrays alone, keeps the dist
length, gives every processed free vertex layer 0, and does not touch
vertices outside the processed list. -/
theorem hkBFSInit_spec :
    ∀ (l : List ℕ) (st : HKState) (dq : List ℕ),
      (∀ u ∈ l, u < st.dist.length) →
      ((hkBFSInit l st dq).1.pv = st.pv ∧
        (hkBFSInit l st dq).1.pu = st.pu ∧
        (hkBFSInit l st dq).1.dist.length = st.dist.length ∧
        (∀ u ∈ l, pvOf st u = -1 → dOf (hkBFSInit l st dq).1 u = 0) ∧
        (∀ x, x ∉ l → dOf (hkBFSInit l st dq).1 x = dOf st x))
  | [], st, dq, _ => ⟨rfl, rfl, rfl, by simp, fun x _ => rfl⟩
  | v :: rest, st, dq, hl => by
    simp only [hkBFSInit]
    by_cases hm : st.pv.getD v (-1) ≠ -1
    · rw [if_pos hm]
      have hrec := hkBFSInit_spec rest
        { st with dist := st.dist.set v ⊤ } dq
        (fun u hu => by simpa using hl u (by simp [hu]))
      refine ⟨hrec.1, hrec.2.1, by rw [hrec.2.2.1]; simp, ?_, ?_⟩
      · intro u hu hufree
        rcases List.mem_cons.mp hu with rfl | hu
        · exact absurd hufree hm
        · exact hrec.2.2.2.1 u hu hufree
      · intro x hx
        have hxv : x ≠ v := fun h => hx (by simp [h])
        have hxr : x ∉ rest := fun h => hx (by simp [h])
        rw [hrec.2.2.2.2 x hxr]
        show (st.dist.set v ⊤).getD x ⊤ = st.dist.getD x ⊤
        exact getD_set_ne _ _ _ _ _ (fun h => hxv h.symm)
    · rw [if_neg hm]
      push_neg at hm
      have hvl : v < st.dist.length := hl v (by simp)
      have hrec := hkBFSInit_spec rest
        { st with dist := st.dist.set v 0 } (dq ++ [v])
        (fun u hu => by simpa using hl u (by simp [hu]))
      refine ⟨hrec.1, hrec.2.1, by rw [hrec.2.2.1]; simp, ?_, ?_⟩
      · intro u hu hufree
        rcases List.mem_cons.mp hu with rfl | hu
        · by_cases hur : u ∈ rest
          · exact hrec.2.2.2.1 u hur hufree
          · rw [hrec.2.2.2.2 u hur]
            show (st.dist.set u (0 : WithTop ℕ)).getD u ⊤ = 0
            exact getD_set_lt _ _ _ _ hvl
        · exact hrec.2.2.2.1 u hu hufree
      · intro x hx
        have hxv : x ≠ v := fun h => hx (by simp [h])
        have hxr : x ∉ rest := fun h => hx (by simp [h])
        rw [hrec.2.2.2.2 x hxr]
        show (st.dist.set v (0 : WithTop ℕ)).getD x ⊤ = st.dist.getD x ⊤
        exact getD_set_ne _ _ _ _ _ (fun h => hxv h.symm)

/-- The bfs neighbor scan leaves the pair arrays alone, keeps the dist
length, and only changes dist entries of matched left vertices. -/
theorem hkBFSScan_spec (n : ℕ) (v : ℕ) :
    ∀ (us : List ℕ) (st : HKState) (dq : List ℕ) (found : Bool),
      (∀ u ∈ us, u < n) → HKJ2L n st →
      (hkBFSScan v us st dq found).1.pv = st.pv ∧
        (hkBFSScan v us st dq found).1.pu = st.pu ∧
        (hkBFSScan v us st dq found).1.dist.length = st.dist.length ∧
        (∀ x, dOf (hkBFSScan v us st dq found).1 x ≠ dOf st x →
          pvOf st x ≠ -1)
  | [], st, dq, found, _, _ => ⟨rfl, rfl, rfl, fun x hx => absurd rfl hx⟩
  | u :: rest, st, dq, found, hus, hJ2L => by
    simp only [hkBFSScan]
    by_cases hpu : st.pu.getD u (-1) = -1
    · rw [if_pos hpu]
      exact hkBFSScan_spec n v rest st dq true
        (fun x hx => hus x (by simp [hx])) hJ2L
    · rw [if_neg hpu]
      by_cases hd : st.dist.getD (st.pu.getD u (-1)).toNat ⊤ = ⊤
      · rw [if_pos hd]
        have hmatched : pvOf st ((puOf st u).toNat) ≠ -1 :=
          hJ2L u (hus u (by simp)) hpu
        have hrec := hkBFSScan_spec n v rest ({ st with dist := st.dist.set (st.pu.getD u (-1)).toNat (st.dist.getD v ⊤ + 1) } : HKState) (dq ++ [(st.pu.getD u (-1)).toNat]) found (fun x hx => hus x (by simp [hx])) hJ2L
        refine ⟨hrec.1, hrec.2.1, by rw [hrec.2.2.1]; simp, ?_⟩
        intro x hx
        by_cases hx1 : dOf (hkBFSScan v rest ({ st with dist := st.dist.set (st.pu.getD u (-1)).toNat (st.dist.getD v ⊤ + 1) } : HKState) (dq ++ [(st.pu.getD u (-1)).toNat]) found).1 x = dOf ({ st with dist := st.dist.set (st.pu.getD u (-1)).toNat (st.dist.getD v ⊤ + 1) } : HKState) x
        · rw [hx1] at hx
          by_cases hxt : x = (st.pu.getD u (-1)).toNat
          · rw [hxt]
            exact hmatched
          · exact absurd
              (getD_set_ne _ _ _ _ _ (fun h => hxt h.symm)) hx
        · exact hrec.2.2.2 x hx1
      · rw [if_neg hd]
        exact hkBFSScan_spec n v rest st dq found
          (fun x hx => hus x (by simp [hx])) hJ2L

/-- The state invariant only depends on the pair arrays and the dist
length. -/
theorem hkInv_transport (n : ℕ) (L : ℕ → Prop) (st st1 : HKState)
    (hpv : st1.pv = st.pv) (hpu : st1.pu = st.pu)
    (hdlen : st1.dist.length = st.dist.length) (hInv : HKInv n L st) :
    HKInv n L st1 := by
  obtain ⟨hl1, hl2, hl3, hJ1, hP1, hJ2L⟩ := hInv
  have hpveq : ∀ x, pvOf st1 x = pvOf st x := fun x => by
    show st1.pv.getD x (-1) = st.pv.getD x (-1)
    rw [hpv]
  have hpueq : ∀ x, puOf st1 x = puOf st x := fun x => by
    show st1.pu.getD x (-1) = st.pu.getD x (-1)
    rw [hpu]
  refine ⟨by rw [hpv]; exact hl1, by rw [hpu]; exact hl2,
    by rw [hdlen]; exact hl3, ?_, ?_, ?_⟩
  · intro w hw hwm
    rw [hpveq w] at hwm
    obtain ⟨u, h1, h2, h3, h4, h5⟩ := hJ1 w hw hwm
    exact ⟨u, h1, by rw [hpveq w]; exact h2, by rw [hpueq u]; exact h3,
      h4, h5⟩
  · intro u hu hum
    rw [hpueq u] at hum
    obtain ⟨w, h1, h2, h3, h4⟩ := hP1 u hu hum
    exact ⟨w, h1, by rw [hpueq u]; exact h2, h3, h4⟩
  · intro u hu hum
    rw [hpueq u] at hum
    rw [hpueq u, hpveq _]
    exact hJ2L u hu hum

/-- The bfs queue loop leaves the pair arrays alone, keeps the dist
length, and only changes dist entries of matched left vertices. -/
theorem hkBFSLoop_spec (n : ℕ) (fa : List (List ℕ))
    (hFAB : ∀ w x, x ∈ fa.getD w [] → x < n) :
    ∀ (fuel : ℕ) (st : HKState) (dq : List ℕ) (found : Bool)
      (st2 : HKState) (found2 : Bool),
      hkBFSLoop fa fuel st dq found = some (st2, found2) →
      HKJ2L n st →
      st2.pv = st.pv ∧ st2.pu = st.pu ∧
        st2.dist.length = st.dist.length ∧
        (∀ x, dOf st2 x ≠ dOf st x → pvOf st x ≠ -1)
  | 0, st, dq, found, st2, found2, hrun, _ => by
    simp [hkBFSLoop] at hrun
  | fuel + 1, st, [], found, st2, found2, hrun, _ => by
    simp only [hkBFSLoop] at hrun
    cases hrun
    exact ⟨rfl, rfl, rfl, fun x hx => absurd rfl hx⟩
  | fuel + 1, st, v :: dq2, found, st2, found2, hrun, hJ2L => by
    simp only [hkBFSLoop] at hrun
    rcases hsc : hkBFSScan v (fa.getD v []) st dq2 found with
      ⟨st1, dq3, f2⟩
    rw [hsc] at hrun
    have hscan := hkBFSScan_spec n v (fa.getD v []) st dq2 found
      (fun x hx => hFAB v x hx) hJ2L
    rw [hsc] at hscan
    obtain ⟨hs1, hs2, hs3, hs4⟩ := hscan
    have hpveq : ∀ x, pvOf st1 x = pvOf st x := fun x => by
      show st1.pv.getD x (-1) = st.pv.getD x (-1)
      rw [hs1]
    have hpueq : ∀ x, puOf st1 x = puOf st x := fun x => by
      show st1.pu.getD x (-1) = st.pu.getD x (-1)
      rw [hs2]
    have hJ2L1 : HKJ2L n st1 := by
      intro u hu hne
      rw [hpueq u] at hne ⊢
      rw [hpveq _]
      exact hJ2L u hu hne
    obtain ⟨hr1, hr2, hr3, hr4⟩ :=
      hkBFSLoop_spec n fa hFAB fuel st1 dq3 f2 st2 found2 hrun hJ2L1
    refine ⟨hr1.trans hs1, hr2.trans hs2, hr3.trans hs3, ?_⟩
    intro x hx
    by_cases hx1 : dOf st2 x = dOf st1 x
    · rw [hx1] at hx
      exact hs4 x hx
    · rw [← hpveq x]
      exact hr4 x hx1

/-- bfs of hopcroft_karp leaves the pair arrays alone, keeps the dist
length, and gives every free left vertex layer 0. -/
theorem hkBFS_spec (n : ℕ) (left : List ℕ) (fa : List (List ℕ))
    (hFAB : ∀ w x, x ∈ fa.getD w [] → x < n)
    (hleft : ∀ u ∈ left, u < n)
    (fuel : ℕ) (st : HKState) (st2 : HKState) (found : Bool)
    (hrun : hkBFS left fa fuel st = some (st2, found))
    (hlen : st.dist.length = n) (hJ2L : HKJ2L n st) :
    st2.pv = st.pv ∧ st2.pu = st.pu ∧
      st2.dist.length = st.dist.length ∧
      (∀ u ∈ left, pvOf st u = -1 → dOf st2 u = 0) := by
  unfold hkBFS at hrun
  rcases hini : hkBFSInit left st [] with ⟨st1, dq⟩
  rw [hini] at hrun
  have hinit := hkBFSInit_spec left st []
    (fun u hu => by rw [hlen]; exact hleft u hu)
  rw [hini] at hinit
  obtain ⟨hi1, hi2, hi3, hi4, hi5⟩ := hinit
  have hpveq : ∀ x, pvOf st1 x = pvOf st x := fun x => by
    show st1.pv.getD x (-1) = st.pv.getD x (-1)
    rw [hi1]
  have hpueq : ∀ x, puOf st1 x = puOf st x := fun x => by
    show st1.pu.getD x (-1) = st.pu.getD x (-1)
    rw [hi2]
  have hJ2L1 : HKJ2L n st1 := by
    intro u hu hne
    rw [hpueq u] at hne ⊢
    rw [hpveq _]
    exact hJ2L u hu hne
  obtain ⟨hr1, hr2, hr3, hr4⟩ :=
    hkBFSLoop_spec n fa hFAB fuel st1 dq false st2 found hrun hJ2L1
  refine ⟨hr1.trans hi1, hr2.trans hi2, hr3.trans hi3, ?_⟩
  intro u hu hufree
  have h0 : dOf st1 u = 0 := hi4 u hu hufree
  by_cases hch : dOf st2 u = dOf st1 u
  · rw [hch, h0]
  · have := hr4 u hch
    rw [hpveq u] at this
    exact absurd hufree this

/-- The per-phase dfs sweep preserves the state invariant, given that
every remaining free left vertex sits at layer 0. -/
theorem hkTryAll_spec (n : ℕ) (L : ℕ → Prop) (fa : List (List ℕ))
    (hFA : HKFA n L fa) (fuel : ℕ) :
    ∀ (rem : List ℕ) (st st2 : HKState),
      hkTryAll fa fuel rem st = some st2 → HKInv n L st →
      rem.Nodup → (∀ u ∈ rem, u < n) →
      (∀ u ∈ rem, pvOf st u = -1 → dOf st u = 0) →
      HKInv n L st2
  | [], st, st2, hrun, hInv, _, _, _ => by
    simp only [hkTryAll] at hrun
    cases hrun
    exact hInv
  | w :: rest, st, st2, hrun, hInv, hnd, hb, hfree0 => by
    simp only [hkTryAll] at hrun
    by_cases hw : st.pv.getD w (-1) = -1
    · rw [if_pos hw] at hrun
      cases hdfs : hkDFS fa fuel w st with
      | none =>
        rw [hdfs] at hrun
        cases hrun
      | some p =>
        rcases p with ⟨st1, b1⟩
        rw [hdfs] at hrun
        have hwn : w < n := hb w (by simp)
        have hfin : ∃ dv : ℕ, dOf st w = (dv : WithTop ℕ) :=
          ⟨0, by rw [hfree0 w (by simp) hw]; simp⟩
        obtain ⟨hInv1, hmono1, hDC1, _, _⟩ :=
          hkDFS_spec n L fa hFA fuel w st [] hInv hwn hfin
            (fun a ha => by simp at ha) st1 b1 hdfs
        refine hkTryAll_spec n L fa hFA fuel rest st1 st2 hrun hInv1
          (List.Nodup.of_cons hnd) (fun u hu => hb u (by simp [hu])) ?_
        intro u hu hufree1
        have hwrest : w ∉ rest := (List.nodup_cons.mp hnd).1
        have huw : u ≠ w := fun h => hwrest (h ▸ hu)
        have hufree : pvOf st u = -1 := by
          by_contra hne
          exact hmono1 u hne hufree1
        have hdeq : dOf st1 u = dOf st u := by
          by_contra hne
          rcases (hDC1 u hne).1 with h | h
          · exact huw h
          · exact h hufree1
        rw [hdeq]
        exact hfree0 u (by simp [hu]) hufree
    · rw [if_neg hw] at hrun
      exact hkTryAll_spec n L fa hFA fuel rest st st2 hrun hInv
        (List.Nodup.of_cons hnd) (fun u hu => hb u (by simp [hu]))
        (fun u hu => hfree0 u (by simp [hu]))

/-- The phase loop preserves the state invariant. -/
theorem hkPhases_spec (n : ℕ) (L : ℕ → Prop) (left : List ℕ)
    (fa : List (List ℕ)) (hFA : HKFA n L fa)
    (hleft : ∀ u ∈ left, u < n) (hnd : left.Nodup) :
    ∀ (fuel : ℕ) (st st2 : HKState),
      hkPhases left fa fuel st = some st2 → HKInv n L st →
      HKInv n L st2
  | 0, st, st2, hrun, _ => by simp [hkPhases] at hrun
  | fuel + 1, st, st2, hrun, hInv => by
    simp only [hkPhases] at hrun
    have hFAB : ∀ w x, x ∈ fa.getD w [] → x < n :=
      fun w x hx => (hFA w x hx).2.1
    cases hbfs : hkBFS left fa (fuel + 1) st with
    | none =>
      rw [hbfs] at hrun
      cases hrun
    | some p =>
      rcases p with ⟨st1, found⟩
      rw [hbfs] at hrun
      obtain ⟨hb1, hb2, hb3, hb4⟩ := hkBFS_spec n left fa hFAB hleft
        (fuel + 1) st st1 found hbfs hInv.2.2.1 hInv.2.2.2.2.2
      have hInv1 : HKInv n L st1 :=
        hkInv_transport n L st st1 hb1 hb2 hb3 hInv
      cases found with
      | false =>
        cases hrun
        exact hInv1
      | true =>
        dsimp only at hrun
        cases htry : hkTryAll fa (fuel + 1) left st1 with
        | none =>
          rw [htry] at hrun
          cases hrun
        | some st3 =>
          rw [htry] at hrun
          have hpveq : ∀ x, pvOf st1 x = pvOf st x := fun x => by
            show st1.pv.getD x (-1) = st.pv.getD x (-1)
            rw [hb1]
          have hInv3 := hkTryAll_spec n L fa hFA (fuel + 1) left st1 st3
            htry hInv1 hnd hleft ?_
          · exact hkPhases_spec n L left fa hFA hleft hnd fuel st3 st2
              hrun hInv3
          · intro u hu hufree
            rw [hpveq u] at hufree
            exact hb4 u hu hufree

/-- The matching returned by hopcroft_karp is vertex disjoint whenever
the forward adjacency respects a partition and the left list is in range
and duplicate free. -/
theorem hopcroft_karp_disjoint (n : ℕ) (edges : List (ℕ × ℕ))
    (left : List ℕ) (fuel : ℕ) (m : List (ℕ × ℤ)) (L : ℕ → Prop)
    (hFA : HKFA n L (buildFAdj n left edges))
    (hleft : ∀ u ∈ left, u < n) (hnd : left.Nodup)
    (hrun : hopcroft_karp n edges left fuel = some m) :
    m.Pairwise (fun p q =>
      p.1 ≠ q.1 ∧ (p.1 : ℤ) ≠ q.2 ∧ p.2 ≠ (q.1 : ℤ) ∧ p.2 ≠ q.2) := by
  simp only [hopcroft_karp] at hrun
  cases hph : hkPhases left (buildFAdj n left edges) fuel
      ⟨List.replicate n (-1), List.replicate n (-1),
        List.replicate n ⊤⟩ with
  | none =>
    rw [hph] at hrun
    cases hrun
  | some stf =>
    rw [hph] at hrun
    cases hrun
    have hInv0 : HKInv n L
        ⟨List.replicate n (-1), List.replicate n (-1),
          List.replicate n ⊤⟩ := by
      refine ⟨by simp, by simp, by simp, ?_, ?_, ?_⟩
      · intro w hw hwm
        exact absurd (by simp [pvOf, getD_replicate, hw]) hwm
      · intro u hu hum
        exact absurd (by simp [puOf, getD_replicate, hu]) hum
      · intro u hu hum
        exact absurd (by simp [puOf, getD_replicate, hu]) hum
    have hInvF := hkPhases_spec n L left (buildFAdj n left edges) hFA
      hleft hnd fuel _ stf hph hInv0
    rw [List.pairwise_filterMap]
    refine List.Pairwise.imp_of_mem ?_ hnd
    intro a b ha hb hab p hp q hq
    by_cases hma : stf.pv.getD a (-1) ≠ -1
    · by_cases hmb : stf.pv.getD b (-1) ≠ -1
      · rw [if_pos hma] at hp
        rw [if_pos hmb] at hq
        obtain rfl := Option.some_inj.mp (Option.mem_def.mp hp)
        obtain rfl := Option.some_inj.mp (Option.mem_def.mp hq)
        obtain ⟨ua, huan, ha1, ha2, hLa, hLua⟩ :=
          hInvF.2.2.2.1 a (hleft a ha) hma
        obtain ⟨ub, hubn, hb1, hb2, hLb, hLub⟩ :=
          hInvF.2.2.2.1 b (hleft b hb) hmb
        refine ⟨hab, ?_, ?_, ?_⟩
        · show (a : ℤ) ≠ pvOf stf b
          rw [hb1]
          intro h
          have : a = ub := by omega
          rw [this] at hLa
          exact hLub hLa
        · show pvOf stf a ≠ (b : ℤ)
          rw [ha1]
          intro h
          have : ua = b := by omega
          rw [← this] at hLb
          exact hLua hLb
        · show pvOf stf a ≠ pvOf stf b
          rw [ha1, hb1]
          intro h
          have huab : ua = ub := by omega
          rw [huab] at ha2
          have : (a : ℤ) = (b : ℤ) := ha2.symm.trans hb2
          exact hab (by omega)
      · rw [if_neg hmb] at hq
        simp at hq
    · rw [if_neg hma] at hp
      simp at hp

/-- C8: on every bipartite input with in-range edges, the matching
returned by solve_matching through hopcroft_karp is vertex disjoint: no
vertex appears in more than one matched pair (and the two vertices of
each pair are distinct, one from each color class). -/
theorem c8_matching_disjoint (n fuel : ℕ) (edges : List (ℕ × ℕ))
    (b : Bool) (m : List (ℕ × ℤ))
    (hrange : ∀ e ∈ edges, e.1 < n ∧ e.2 < n)
    (hrun : solve_matching n edges fuel = some (b, m)) :
    m.Pairwise (fun p q =>
      p.1 ≠ q.1 ∧ (p.1 : ℤ) ≠ q.2 ∧ p.2 ≠ (q.1 : ℤ) ∧ p.2 ≠ q.2) := by
  unfold solve_matching at hrun
  cases hcb : check_bipartite n edges fuel with
  | none =>
    rw [hcb] at hrun
    cases hrun
  | some p =>
    rcases p with ⟨bb, colors⟩
    rw [hcb] at hrun
    cases bb with
    | false =>
      dsimp only at hrun
      cases hrun
      simp
    | true =>
      dsimp only at hrun
      obtain ⟨hclen, hok, hcolored, hproper⟩ :=
        cb_proper n edges fuel colors hrange hcb
      have hFA := buildFAdj_spec n edges colors hrange hproper
      rw [hclen] at hrun
      cases hhk : hopcroft_karp n edges
          ((List.range n).filter (fun i => colors.getD i (-1) = 0))
          fuel with
      | none =>
        rw [hhk] at hrun
        cases hrun
      | some m2 =>
        rw [hhk] at hrun
        cases hrun
        refine hopcroft_karp_disjoint n edges _ fuel _
          (fun x => colors.getD x (-1) = 0) hFA ?_ ?_ hhk
        · intro u hu
          exact List.mem_range.mp (List.mem_filter.mp hu).1
        · exact (List.nodup_range n).filter _

/-- Witness: the concrete run on the bipartite 4-cycle returns the
perfect matching (0, 1), (2, 3), which is vertex disjoint. -/
theorem c8_matching_disjoint_witness :
    List.Pairwise
      (fun p q : ℕ × ℤ =>
        p.1 ≠ q.1 ∧ (p.1 : ℤ) ≠ q.2 ∧ p.2 ≠ (q.1 : ℤ) ∧ p.2 ≠ q.2)
      [((0 : ℕ), (1 : ℤ)), (2, 3)] :=
  c8_matching_disjoint 4 20 [(0, 1), (1, 2), (2, 3), (3, 0)] true
    [(0, 1), (2, 3)] (by decide) (by decide)
